import Mathlib

/-!
# Verification of the `configreader` package (`src/configreader/core.py`)

This file gives a shallow embedding of the two core components of the
repository:

* `ExpressionString` — a restricted expression evaluator that walks a parsed
  Python syntax tree and evaluates only a whitelisted grammar;
* `Section` — a hierarchical configuration tree with path normalization and
  ambiguity-aware key lookup.

Modelling conventions:

* Python strings are Lean `String`s; the string operations the source uses
  (`str.split`, `str.join`, `str.startswith`, `str.endswith`, `in`,
  slicing `[:-1]`) are re-implemented here over character lists so that every
  definition reduces inside the kernel.
* Python `float` is modelled as `Rat`.  Every float the claims exercise is
  exactly representable, and host transcendental functions (`math.sin`, …)
  are modelled only at arguments where their IEEE value is exact; elsewhere
  they return the explicit `unmodelledHost` error value, which no theorem
  below relies on.
* Fallible code returns `Except`.  Host-level failures that the source does
  not name (`AttributeError`, `IndexError`, `TypeError` raised by the call
  machinery, …) are distinct error constructors, kept separate from the
  errors the source raises intentionally (`ValueError('Forbidden node …')`,
  `ValueError('Unknown function …')`, `MissingKeyError`, …).
* Mutable tree updates are modelled by returning the updated tree.
-/

/-! ## Python string primitives -/

/-- Python `sub in s` membership for strings: `sub` occurs as a contiguous substring. -/
def pyContains (sub s : String) : Bool :=
  go sub.data s.data
where
  go (sub : List Char) : List Char → Bool
    | [] => sub.isEmpty
    | c :: cs => sub.isPrefixOf (c :: cs) || go sub cs

/-- Python `s.startswith(pre)`. -/
def pyStartsWith (s pre : String) : Bool :=
  pre.data.isPrefixOf s.data

/-- Python `s.endswith(suf)`. -/
def pyEndsWith (s suf : String) : Bool :=
  suf.data.reverse.isPrefixOf s.data.reverse

/-- Python `s[:-1]`: drop the last character. -/
def pyDropLast (s : String) : String :=
  String.mk s.data.dropLast

/-- Auxiliary worker for `pySplit`.  `acc` holds the current chunk reversed;
`fuel` bounds the recursion (it is initialised to the length of the input,
which suffices because each step consumes at least one character). -/
def pySplitAux (sep : List Char) : List Char → List Char → Nat → List String
  | [], acc, _ => [String.mk acc.reverse]
  | c :: cs, acc, 0 => [String.mk (acc.reverse ++ (c :: cs))]
  | c :: cs, acc, fuel + 1 =>
    if sep.isPrefixOf (c :: cs) then
      String.mk acc.reverse :: pySplitAux sep ((c :: cs).drop sep.length) [] fuel
    else
      pySplitAux sep cs (c :: acc) fuel

/-- Python `s.split(sep)` with an explicit non-empty separator:
splits on every non-overlapping occurrence of `sep`, keeping empty chunks.
(The source only ever calls `split` with the section separator, which is
non-empty; Python rejects an empty separator.) -/
def pySplit (s sep : String) : List String :=
  if sep.data.isEmpty then [s] else pySplitAux sep.data s.data [] s.data.length

/-- Python `sep.join(parts)`. -/
def pyJoin (sep : String) : List String → String
  | [] => ""
  | [x] => x
  | x :: y :: rest => x ++ sep ++ pyJoin sep (y :: rest)

example : pySplit "top/sub1/sub2" "/" = ["top", "sub1", "sub2"] := rfl
example : pySplit "//y" "/" = ["", "", "y"] := rfl
example : pySplit "top" "/" = ["top"] := rfl
example : pyJoin "/" ["top", "x"] = "top/x" := rfl
example : pyContains "/" "a/b" = true := rfl
example : pyContains "/" "ab" = false := rfl

/-! ## The value model

Python objects produced by the evaluator (`§3 Value` of the specification):
a closed tagged union.  `float` is modelled by `Rat`; the generator produced
by a tuple literal (`parse_Tuple` returns a generator expression) is
modelled by `tup` carrying the element sequence it would yield. -/

mutual

inductive Value where
  | pynone : Value
  | bool (b : Bool) : Value
  | int (n : Int) : Value
  | float (q : Rat) : Value
  | str (s : String) : Value
  | list (elems : Values) : Value
  | tup (elems : Values) : Value
  | setv (elems : Values) : Value
  | dict (entries : VPairs) : Value
deriving DecidableEq

inductive Values where
  | nil : Values
  | cons (head : Value) (tail : Values) : Values
deriving DecidableEq

inductive VPairs where
  | nil : VPairs
  | cons (key : Value) (val : Value) (tail : VPairs) : VPairs
deriving DecidableEq

end

def Values.length : Values → Nat
  | .nil => 0
  | .cons _ t => t.length + 1

/-- Numeric view shared by `bool`, `int` and `float`: Python's `bool` is a
subclass of `int`, and `int`/`float` arithmetic and comparisons coerce to a
common numeric value. -/
def toRatNum : Value → Option Rat
  | .bool b => some (if b then 1 else 0)
  | .int n => some (n : Rat)
  | .float q => some q
  | _ => none

mutual

/-- Python `==` on evaluator values.  Numbers (including `bool`) compare by
numeric value across tags; strings and `None` structurally; lists pointwise.
Two generator objects (tuple-literal results) are distinct objects and
compare unequal; sets and dicts are compared structurally (their hash-based
equality is not exercised by any claim). -/
def pyEq : Value → Value → Bool
  | .list as, .list bs => pyEqList as bs
  | .tup _, .tup _ => false
  | a, b =>
    match toRatNum a, toRatNum b with
    | some x, some y => x == y
    | _, _ =>
      match a, b with
      | .str x, .str y => x == y
      | .pynone, .pynone => true
      | .setv xs, .setv ys => xs == ys
      | .dict xs, .dict ys => xs == ys
      | _, _ => false

def pyEqList : Values → Values → Bool
  | .nil, .nil => true
  | .cons a as, .cons b bs => pyEq a b && pyEqList as bs
  | _, _ => false

end

mutual

/-- Python `<` on evaluator values, as far as the model needs it: numeric
comparison across the numeric tags, lexicographic on strings and lists.
Anything else is a host `TypeError`, reported as `none`. -/
def pyLt : Value → Value → Option Bool
  | .list as, .list bs => pyLtList as bs
  | a, b =>
    match toRatNum a, toRatNum b with
    | some x, some y => some (decide (x < y))
    | _, _ =>
      match a, b with
      | .str x, .str y => some (decide (x < y))
      | _, _ => none

def pyLtList : Values → Values → Option Bool
  | .nil, .nil => some false
  | .nil, .cons _ _ => some true
  | .cons _ _, .nil => some false
  | .cons a as, .cons b bs =>
    if pyEq a b then pyLtList as bs
    else pyLt a b

end

/-- Python truthiness, used by `all`/`any` in `parse_BoolOp`. -/
def truthy : Value → Bool
  | .pynone => false
  | .bool b => b
  | .int n => n != 0
  | .float q => q != 0
  | .str s => !s.isEmpty
  | .list es => es.length != 0
  | .tup _ => true
  | .setv es => es.length != 0
  | .dict ps => match ps with | .nil => false | .cons _ _ _ => true

/-- Membership `x in y` for containers the model supports. -/
def pyMem (x : Value) : Value → Option Bool
  | .list es => some (memList es)
  | .tup es => some (memList es)
  | .setv es => some (memList es)
  | .str s => match x with
      | .str sub => some (pyContains sub s)
      | _ => none
  | _ => none
where
  memList : Values → Bool
    | .nil => false
    | .cons e rest => pyEq x e || memList rest

/-- Insertion into set elements: `setAdd es v` inserts `v` into the set elements `es` unless an equal
element is present: Python set construction keeps the first occurrence. -/
def setAdd (es : Values) (v : Value) : Values :=
  if mem es then es else append es
where
  mem : Values → Bool
    | .nil => false
    | .cons e rest => pyEq v e || mem rest
  append : Values → Values
    | .nil => .cons v .nil
    | .cons e rest => .cons e (append rest)

/-- Python dict insertion: a later duplicate key overwrites the earlier
value, keeping the original position. -/
def dictInsert (ps : VPairs) (k v : Value) : VPairs :=
  match ps with
  | .nil => .cons k v .nil
  | .cons k' v' rest =>
    if pyEq k k' then .cons k' v rest else .cons k' v' (dictInsert rest k v)

/-! ## The expression evaluator (`ExpressionString`)

The Python abstract syntax tree, restricted to the node kinds the claims
need: every node kind for which `ExpressionString` has a `parse_<Kind>`
handler, plus a representative family of node kinds with no handler
(attribute access, subscripting, lambda, assignment, import, starred
argument spreading, a loop).  `Constant` carries the literal value the host
parser produced; `Compare` carries `zip(node.ops, node.comparators)` (the
host parser guarantees the two lists have equal length). -/

inductive BinOpK where
  | add | sub | mult | div | floorDiv | mod | pow
  | lshift | rshift | bitOr | bitXor | bitAnd | matMult
deriving DecidableEq

inductive UnaryOpK where
  | uadd | usub | notK | invert
deriving DecidableEq

inductive BoolOpK where
  | andK | orK
deriving DecidableEq

inductive CmpOpK where
  | eq | notEq | lt | lte | gt | gte | isK | isNotK | inK | notInK
deriving DecidableEq

mutual

inductive PyNode where
  | module (body : PyNodes) : PyNode
  | expression (body : PyNode) : PyNode
  | exprStmt (value : PyNode) : PyNode
  | constant (value : Value) : PyNode
  | name (id : String) : PyNode
  | binOp (left : PyNode) (op : BinOpK) (right : PyNode) : PyNode
  | unaryOp (op : UnaryOpK) (operand : PyNode) : PyNode
  | boolOp (op : BoolOpK) (values : PyNodes) : PyNode
  | compare (left : PyNode) (pairs : CmpPairs) : PyNode
  | call (func : PyNode) (args : PyNodes) (keywords : Keywords) : PyNode
  | listLit (elts : PyNodes) : PyNode
  | tupleLit (elts : PyNodes) : PyNode
  | setLit (elts : PyNodes) : PyNode
  | dictLit (keys : PyNodes) (values : PyNodes) : PyNode
  | attribute (value : PyNode) (attr : String) : PyNode
  | subscript (value : PyNode) (slice : PyNode) : PyNode
  | lambdaK (body : PyNode) : PyNode
  | assign (target : PyNode) (value : PyNode) : PyNode
  | importK (moduleName : String) : PyNode
  | starred (value : PyNode) : PyNode
  | forK (target : PyNode) (iter : PyNode) (body : PyNodes) : PyNode
deriving DecidableEq

inductive PyNodes where
  | nil : PyNodes
  | cons (head : PyNode) (tail : PyNodes) : PyNodes
deriving DecidableEq

inductive CmpPairs where
  | nil : CmpPairs
  | cons (op : CmpOpK) (comparator : PyNode) (tail : CmpPairs) : CmpPairs
deriving DecidableEq

inductive Keywords where
  | nil : Keywords
  | cons (arg : Option String) (value : PyNode) (tail : Keywords) : Keywords
deriving DecidableEq

end

def PyNodes.length : PyNodes → Nat
  | .nil => 0
  | .cons _ t => t.length + 1

/-- The host attribute `node.__class__.__name__` of the AST object. -/
def className : PyNode → String
  | .module _ => "Module"
  | .expression _ => "Expression"
  | .exprStmt _ => "Expr"
  | .constant _ => "Constant"
  | .name _ => "Name"
  | .binOp _ _ _ => "BinOp"
  | .unaryOp _ _ => "UnaryOp"
  | .boolOp _ _ => "BoolOp"
  | .compare _ _ => "Compare"
  | .call _ _ _ => "Call"
  | .listLit _ => "List"
  | .tupleLit _ => "Tuple"
  | .setLit _ => "Set"
  | .dictLit _ _ => "Dict"
  | .attribute _ _ => "Attribute"
  | .subscript _ _ => "Subscript"
  | .lambdaK _ => "Lambda"
  | .assign _ _ => "Assign"
  | .importK _ => "Import"
  | .starred _ => "Starred"
  | .forK _ _ _ => "For"

/-- The check `hasattr(self, f'parse_{cls_name}')`: the exact set of `parse_<Kind>`
methods defined on `ExpressionString`. -/
def hasParseHandler (kind : String) : Bool :=
  kind == "Call" || kind == "Constant" || kind == "Name" || kind == "BinOp" ||
  kind == "UnaryOp" || kind == "BoolOp" || kind == "Compare" ||
  kind == "List" || kind == "Tuple" || kind == "Set" || kind == "Dict" ||
  kind == "Expression" || kind == "Module" || kind == "Expr"

/-- Evaluator failures.  The first four are errors `ExpressionString` raises
itself (all as `ValueError`, distinguished here by their messages); the
rest are host-level exceptions the source does not raise deliberately. -/
inductive EvalErr where
  | unsupportedSyntax (kind : String) : EvalErr
  | unknownFunction (name : String) : EvalErr
  | unsupportedOperator : EvalErr
  | arityError : EvalErr
  | zeroDivision : EvalErr
  | typeError : EvalErr
  | attributeError : EvalErr
  | keywordTypeError : EvalErr
  | unmodelledHost (what : String) : EvalErr
deriving DecidableEq

/-- A registered function: positional arguments and keyword arguments to a
result (or a host error). -/
def FuncImpl : Type :=
  List Value → List (String × Value) → Except EvalErr Value

/-- The constant and function registries of an `ExpressionString` instance. -/
structure ESEnv where
  constants : List (String × Value)
  functions : List (String × FuncImpl)

/-- Dictionary lookup in a registry. -/
def lookupReg {α : Type} (regs : List (String × α)) (key : String) : Option α :=
  match regs with
  | [] => none
  | (k, v) :: rest => if k == key then some v else lookupReg rest key

/-- Python dict assignment `d[k] = v`: overwrite in place or append. -/
def assocSet {α : Type} : List (String × α) → String → α → List (String × α)
  | [], k, v => [(k, v)]
  | (k', v') :: rest, k, v =>
    if k' == k then (k', v) :: rest else (k', v') :: assocSet rest k v

/-- Numeric addition with Python's tag promotion: `bool`/`int` operands give
an `int`, any `float` operand gives a `float`. -/
def numCombine (x y : Value) (f : Rat → Rat → Rat) : Except EvalErr Value :=
  match toRatNum x, toRatNum y with
  | some a, some b =>
    match x, y with
    | .float _, _ => .ok (.float (f a b))
    | _, .float _ => .ok (.float (f a b))
    | _, _ => .ok (.int (f a b).num)
  | _, _ => .error .typeError

def valuesAppend : Values → Values → Values
  | .nil, ys => ys
  | .cons x xs, ys => .cons x (valuesAppend xs ys)

def valuesRepeatN (xs : Values) : Nat → Values
  | 0 => .nil
  | n + 1 => valuesAppend xs (valuesRepeatN xs n)

/-- Python `list * int` (a non-positive count gives the empty list). -/
def valuesRepeat (xs : Values) (n : Int) : Values :=
  valuesRepeatN xs n.toNat

def strRepeatN (s : String) : Nat → String
  | 0 => ""
  | n + 1 => s ++ strRepeatN s n

/-- Python `str * int` (a non-positive count gives the empty string). -/
def strRepeat (s : String) (n : Int) : String :=
  strRepeatN s n.toNat

/-- The add entry of the operator table in `parse_BinOp`. -/
def opAdd (x y : Value) : Except EvalErr Value :=
  match x, y with
  | .str a, .str b => .ok (.str (a ++ b))
  | .list a, .list b => .ok (.list (valuesAppend a b))
  | _, _ => numCombine x y (· + ·)

def opSub (x y : Value) : Except EvalErr Value :=
  numCombine x y (· - ·)

def opMul (x y : Value) : Except EvalErr Value :=
  match x, y with
  | .str a, .int n => .ok (.str (strRepeat a n))
  | .int n, .str a => .ok (.str (strRepeat a n))
  | .list a, .int n => .ok (.list (valuesRepeat a n))
  | .int n, .list a => .ok (.list (valuesRepeat a n))
  | _, _ => numCombine x y (· * ·)

/-- Python true division: always a `float`, `ZeroDivisionError` on zero. -/
def opDiv (x y : Value) : Except EvalErr Value :=
  match toRatNum x, toRatNum y with
  | some a, some b => if b = 0 then .error .zeroDivision else .ok (.float (a / b))
  | _, _ => .error .typeError

/-- Python floor division `//`: floor of the quotient, keeping the numeric
tag promotion. -/
def opFloorDiv (x y : Value) : Except EvalErr Value :=
  match toRatNum x, toRatNum y with
  | some a, some b =>
    if b = 0 then .error .zeroDivision
    else
      match x, y with
      | .float _, _ => .ok (.float (⌊a / b⌋ : Int))
      | _, .float _ => .ok (.float (⌊a / b⌋ : Int))
      | _, _ => .ok (.int ⌊a / b⌋)
  | _, _ => .error .typeError

/-- Python `%`: `a - b * (a // b)` (result takes the divisor's sign). -/
def opMod (x y : Value) : Except EvalErr Value :=
  match toRatNum x, toRatNum y with
  | some a, some b =>
    if b = 0 then .error .zeroDivision
    else
      match x, y with
      | .float _, _ => .ok (.float (a - b * (⌊a / b⌋ : Int)))
      | _, .float _ => .ok (.float (a - b * (⌊a / b⌋ : Int)))
      | _, _ => .ok (.int (a - b * (⌊a / b⌋ : Int)).num)
  | _, _ => .error .typeError

/-- Python `**` on the operand shapes whose host value is an exact rational:
an integer (or bool) exponent.  A fractional exponent produces an
irrational host float and is outside this model. -/
def opPow (x y : Value) : Except EvalErr Value :=
  match toRatNum x, toRatNum y with
  | some a, some b =>
    if b.den == 1 then
      if 0 ≤ b.num then
        match x, y with
        | .float _, _ => .ok (.float (a ^ b.num.toNat))
        | _, .float _ => .ok (.float (a ^ b.num.toNat))
        | _, _ => .ok (.int (a ^ b.num.toNat).num)
      else
        if a = 0 then .error .zeroDivision
        else .ok (.float ((a ^ (-b.num).toNat)⁻¹))
    else .error (.unmodelledHost "fractional power")
  | _, _ => .error .typeError

/-- The operator-table dispatch of `parse_BinOp`: the `isinstance` chain
selects one of the seven table entries, and any other `ast` binary operator
(shifts, bitwise operators, `@`) falls into the
`ValueError('Unhandled binary operator ...')` branch. -/
def binOpFun : BinOpK → Except EvalErr (Value → Value → Except EvalErr Value)
  | .add => .ok opAdd
  | .sub => .ok opSub
  | .mult => .ok opMul
  | .div => .ok opDiv
  | .floorDiv => .ok opFloorDiv
  | .mod => .ok opMod
  | .pow => .ok opPow
  | _ => .error .unsupportedOperator

/-- The operator table of `parse_UnaryOp`.  Every `ast` unary operator is
handled, so the `else` branch of the source (which would itself crash with
a `NameError`) is unreachable. -/
def unaryOpFun (op : UnaryOpK) (x : Value) : Except EvalErr Value :=
  match op with
  | .uadd =>
    match x with
    | .bool b => .ok (.int (if b then 1 else 0))
    | .int n => .ok (.int n)
    | .float q => .ok (.float q)
    | _ => .error .typeError
  | .usub =>
    match x with
    | .bool b => .ok (.int (if b then -1 else 0))
    | .int n => .ok (.int (-n))
    | .float q => .ok (.float (-q))
    | _ => .error .typeError
  | .notK => .ok (.bool (!truthy x))
  | .invert =>
    match x with
    | .bool b => .ok (.int (-(if b then (1 : Int) else 0) - 1))
    | .int n => .ok (.int (-n - 1))
    | _ => .error .typeError

/-- One entry of the comparison table in `parse_Compare`.  `is`/`is not`
compare host object identity, which only the interned singletons (`None`,
`True`, `False`) make deterministic; other operands are outside the model. -/
def cmpOpFun (op : CmpOpK) (x y : Value) : Except EvalErr Value :=
  match op with
  | .eq => .ok (.bool (pyEq x y))
  | .notEq => .ok (.bool (!pyEq x y))
  | .lt =>
    match pyLt x y with
    | some b => .ok (.bool b)
    | none => .error .typeError
  | .lte =>
    match pyLt x y with
    | some b => .ok (.bool (b || pyEq x y))
    | none => .error .typeError
  | .gt =>
    match pyLt y x with
    | some b => .ok (.bool b)
    | none => .error .typeError
  | .gte =>
    match pyLt y x with
    | some b => .ok (.bool (b || pyEq x y))
    | none => .error .typeError
  | .isK =>
    match x, y with
    | .pynone, _ => .ok (.bool (pyEq x y))
    | _, .pynone => .ok (.bool (pyEq x y))
    | .bool _, _ => .ok (.bool (x == y))
    | _, .bool _ => .ok (.bool (x == y))
    | _, _ => .error (.unmodelledHost "is")
  | .isNotK =>
    match x, y with
    | .pynone, _ => .ok (.bool (!pyEq x y))
    | _, .pynone => .ok (.bool (!pyEq x y))
    | .bool _, _ => .ok (.bool (!(x == y)))
    | _, .bool _ => .ok (.bool (!(x == y)))
    | _, _ => .error (.unmodelledHost "is not")
  | .inK =>
    match pyMem x y with
    | some b => .ok (.bool b)
    | none => .error .typeError
  | .notInK =>
    match pyMem x y with
    | some b => .ok (.bool (!b))
    | none => .error .typeError

def valuesOfList : List Value → Values
  | [] => .nil
  | v :: vs => .cons v (valuesOfList vs)

def setOfList (vs : List Value) : Values :=
  go .nil vs
where
  go (acc : Values) : List Value → Values
    | [] => acc
    | v :: rest => go (setAdd acc v) rest

def dictOfPairs (ps : List (Value × Value)) : VPairs :=
  go .nil ps
where
  go (acc : VPairs) : List (Value × Value) → VPairs
    | [] => acc
    | (k, v) :: rest => go (dictInsert acc k v) rest

/-- Keyword nodes: a `None` name (from `f(**d)` spreading) makes the host
call machinery raise `TypeError` before the registered callable runs. -/
def splitKw : List (Option String × Value) → Option (List (String × Value))
  | [] => some []
  | (some k, v) :: rest => (splitKw rest).map ((k, v) :: ·)
  | (none, _) :: _ => none

/-- The call `self.functions[funcname](*args, **kwargs)`: the host call raises
`TypeError` on a `None` keyword name, otherwise applies the callable. -/
def applyRegistered (f : FuncImpl) (args : List Value)
    (kws : List (Option String × Value)) : Except EvalErr Value :=
  match splitKw kws with
  | none => .error .keywordTypeError
  | some named => f args named

mutual

/-- Model of `ExpressionString.parse_node`: look up the handler named
`parse_{node.__class__.__name__}`; dispatch to it if it exists, otherwise
raise `ValueError(f'Forbidden node: {cls_name}')`.  Each arm below is the
corresponding `parse_<Kind>` handler; the final arm covers exactly the node
kinds for which `hasParseHandler` is false. -/
def parseNode (env : ESEnv) : PyNode → Except EvalErr Value
  | .module body =>
    match body with
    | .cons single .nil => parseNode env single
    | several => do
      let vs ← parseNodes env several
      .ok (.list (valuesOfList vs))
  | .expression body => parseNode env body
  | .exprStmt v => parseNode env v
  | .constant v =>
    match v with
    | .str s =>
      match lookupReg env.constants s with
      | some c => .ok c
      | none => .ok (.str s)
    | _ => .ok v
  | .name id =>
    match lookupReg env.constants id with
    | some c => .ok c
    | none => .ok (.str id)
  | .binOp l op r => do
    let f ← binOpFun op
    let x ← parseNode env l
    let y ← parseNode env r
    f x y
  | .unaryOp op operand => do
    let x ← parseNode env operand
    unaryOpFun op x
  | .boolOp op values =>
    if values.length < 2 then .error .arityError
    else do
      let vs ← parseNodes env values
      match op with
      | .andK => .ok (.bool (vs.all truthy))
      | .orK => .ok (.bool (vs.any truthy))
  | .compare left pairs => do
    let l ← parseNode env left
    let res ← parseCmpChain env l pairs
    .ok (.bool (res.all id))
  | .call func args keywords =>
    match func with
    | .name funcname =>
      match lookupReg env.functions funcname with
      | none => .error (.unknownFunction funcname)
      | some f => do
        let argv ← parseNodes env args
        let kwv ← parseKeywords env keywords
        applyRegistered f argv kwv
    | _ => .error .attributeError
  | .listLit elts => do
    let vs ← parseNodes env elts
    .ok (.list (valuesOfList vs))
  | .tupleLit elts => do
    let vs ← parseNodes env elts
    .ok (.tup (valuesOfList vs))
  | .setLit elts => do
    let vs ← parseNodes env elts
    .ok (.setv (setOfList vs))
  | .dictLit keys vals => do
    let ks ← parseNodes env keys
    let vs ← parseNodes env vals
    .ok (.dict (dictOfPairs (ks.zip vs)))
  | n => .error (.unsupportedSyntax (className n))
termination_by structural n => n

/-- A list comprehension `[self.parse_node(n) for n in nodes]`. -/
def parseNodes (env : ESEnv) : PyNodes → Except EvalErr (List Value)
  | .nil => .ok []
  | .cons n rest => do
    let v ← parseNode env n
    let vs ← parseNodes env rest
    .ok (v :: vs)
termination_by structural ns => ns

/-- The loop of `parse_Compare`: for each `(op, comparator)` pair, evaluate
the comparator, compute `op(left, val)`, append the result, and advance
`left` to `val` regardless of the pairwise outcome. -/
def parseCmpChain (env : ESEnv) (left : Value) : CmpPairs → Except EvalErr (List Bool)
  | .nil => .ok []
  | .cons op comparator rest => do
    let v ← parseNode env comparator
    let b ← cmpOpFun op left v
    let bs ← parseCmpChain env v rest
    .ok ((truthy b) :: bs)
termination_by structural ps => ps

/-- The kwargs comprehension of `parse_Call`:
`{kwarg.arg: self.parse_node(kwarg.value) for kwarg in node.keywords}`. -/
def parseKeywords (env : ESEnv) : Keywords → Except EvalErr (List (Option String × Value))
  | .nil => .ok []
  | .cons arg v rest => do
    let val ← parseNode env v
    let vs ← parseKeywords env rest
    .ok ((arg, val) :: vs)
termination_by structural ks => ks

end

/-! ## Default registries

`ExpressionString.__init__` installs these functions and constants.  The
transcendental `math` functions return irrational host floats at almost all
arguments; they are modelled exactly at the arguments where the host result
is an exact small value (e.g. `math.sin(0) == 0.0`) and are otherwise
outside the model (`unmodelledHost`).  No theorem below depends on an
`unmodelledHost` result. -/

def mathSin : FuncImpl := fun args kws =>
  match args, kws with
  | [v], [] =>
    match toRatNum v with
    | some q => if q = 0 then .ok (.float 0) else .error (.unmodelledHost "sin")
    | none => .error .typeError
  | _, _ => .error .typeError

def mathCos : FuncImpl := fun args kws =>
  match args, kws with
  | [v], [] =>
    match toRatNum v with
    | some q => if q = 0 then .ok (.float 1) else .error (.unmodelledHost "cos")
    | none => .error .typeError
  | _, _ => .error .typeError

def mathTan : FuncImpl := fun args kws =>
  match args, kws with
  | [v], [] =>
    match toRatNum v with
    | some q => if q = 0 then .ok (.float 0) else .error (.unmodelledHost "tan")
    | none => .error .typeError
  | _, _ => .error .typeError

def mathExp : FuncImpl := fun args kws =>
  match args, kws with
  | [v], [] =>
    match toRatNum v with
    | some q => if q = 0 then .ok (.float 1) else .error (.unmodelledHost "exp")
    | none => .error .typeError
  | _, _ => .error .typeError

/-- Model of `math.sqrt`, exact on perfect-square rationals. -/
def mathSqrt : FuncImpl := fun args kws =>
  match args, kws with
  | [v], [] =>
    match toRatNum v with
    | some q =>
      if q < 0 then .error (.unmodelledHost "sqrt domain")
      else
        if (Nat.sqrt q.num.toNat) * (Nat.sqrt q.num.toNat) == q.num.toNat
            && (Nat.sqrt q.den) * (Nat.sqrt q.den) == q.den then
          .ok (.float ((Nat.sqrt q.num.toNat : Rat) / (Nat.sqrt q.den : Rat)))
        else .error (.unmodelledHost "sqrt")
    | none => .error .typeError
  | _, _ => .error .typeError

def sumValues : Values → Value → Except EvalErr Value
  | .nil, acc => .ok acc
  | .cons v rest, acc => do
    let acc' ← numCombine acc v (· + ·)
    sumValues rest acc'

/-- Built-in `sum`: numeric fold from a start value (default `0`). -/
def pySum : FuncImpl := fun args kws =>
  match args, kws with
  | [v], [] =>
    match v with
    | .list es => sumValues es (.int 0)
    | .tup es => sumValues es (.int 0)
    | .setv es => sumValues es (.int 0)
    | _ => .error .typeError
  | [v, s], [] =>
    match v with
    | .list es => sumValues es s
    | .tup es => sumValues es s
    | .setv es => sumValues es s
    | _ => .error .typeError
  | _, _ => .error .typeError

/-- Built-in `int` (string parsing is outside the model). -/
def pyIntFn : FuncImpl := fun args kws =>
  match args, kws with
  | [], [] => .ok (.int 0)
  | [v], [] =>
    match v with
    | .bool b => .ok (.int (if b then 1 else 0))
    | .int n => .ok (.int n)
    | .float q => .ok (.int (q.num.tdiv q.den))
    | .str _ => .error (.unmodelledHost "int of str")
    | _ => .error .typeError
  | _, _ => .error .typeError

/-- Built-in `float` (string parsing is outside the model). -/
def pyFloatFn : FuncImpl := fun args kws =>
  match args, kws with
  | [], [] => .ok (.float 0)
  | [v], [] =>
    match toRatNum v with
    | some q => .ok (.float q)
    | none =>
      match v with
      | .str _ => .error (.unmodelledHost "float of str")
      | _ => .error .typeError
  | _, _ => .error .typeError

/-- Built-in `bool`. -/
def pyBoolFn : FuncImpl := fun args kws =>
  match args, kws with
  | [], [] => .ok (.bool false)
  | [v], [] => .ok (.bool (truthy v))
  | _, _ => .error .typeError

/-- Built-in `str` (rendering non-string values is outside the model). -/
def pyStrFn : FuncImpl := fun args kws =>
  match args, kws with
  | [], [] => .ok (.str "")
  | [.str s], [] => .ok (.str s)
  | [_], [] => .error (.unmodelledHost "str rendering")
  | _, _ => .error .typeError

/-- The shortest-repr decimal of the host float `math.pi`. -/
def piRat : Rat := (3141592653589793 : Rat) / (1000000000000000 : Rat)

/-- The shortest-repr decimal of the host float `math.e`. -/
def eRat : Rat := (2718281828459045 : Rat) / (1000000000000000 : Rat)

def defaultFunctions : List (String × FuncImpl) :=
  [("sin", mathSin), ("cos", mathCos), ("tan", mathTan), ("exp", mathExp),
   ("root", mathSqrt), ("sqrt", mathSqrt), ("sum", pySum), ("int", pyIntFn),
   ("float", pyFloatFn), ("bool", pyBoolFn), ("str", pyStrFn)]

def defaultConstants : List (String × Value) :=
  [("pi", .float piRat), ("Pi", .float piRat), ("PI", .float piRat),
   ("e", .float eRat), ("E", .float eRat)]

/-- A freshly constructed `ExpressionString()` with no extra registrations. -/
def defaultEnv : ESEnv :=
  { constants := defaultConstants, functions := defaultFunctions }

/-! ## The section tree (`Section`)

A `Section` object is modelled by the subtree it roots (`Stree`): `name`,
`content` (an ordered string-keyed dict of values) and `subsections` (an
ordered dict of child sections whose dict key always equals the child's
`name`, by construction in `add_subsection`).  The `parent` back-reference
of the source is represented by addressing a section through the pair of
the tree root and the list of names from the root to the section
(`selfPath`); the source's derived `full_path` is then the separator-join
of that list, exactly the unfolding of the recursive `full_path` property.
Mutation is modelled by returning the updated root. -/

inductive TreeErr where
  | missingKey : TreeErr
  | nonUniqueKey : TreeErr
  | missingSubsection : TreeErr
  | invalidPath : TreeErr
  | badToplevel : TreeErr
  | indexError : TreeErr
  | nameError : TreeErr
  | stopIteration : TreeErr
  | selfNotInTree : TreeErr
deriving DecidableEq

mutual

inductive Stree where
  | mk (name : String) (content : List (String × Value)) (children : Strees) : Stree
deriving DecidableEq

inductive Strees where
  | nil : Strees
  | cons (head : Stree) (tail : Strees) : Strees
deriving DecidableEq

end

def Stree.name : Stree → String
  | .mk n _ _ => n

def Stree.content : Stree → List (String × Value)
  | .mk _ c _ => c

def Stree.children : Stree → Strees
  | .mk _ _ ch => ch

def Strees.names : Strees → List String
  | .nil => []
  | .cons c rest => c.name :: rest.names

def Strees.length : Strees → Nat
  | .nil => 0
  | .cons _ rest => rest.length + 1

/-- Dict access `self.subsections[n]` and `n in self.subsections` (the dict key equals the
child's name). -/
def findChild : Strees → String → Option Stree
  | .nil, _ => none
  | .cons c rest, n => if c.name == n then some c else findChild rest n

/-- Walk down from a section through the given child names. -/
def descend : Stree → List String → Option Stree
  | t, [] => some t
  | t, n :: rest =>
    match findChild t.children n with
    | some c => descend c rest
    | none => none

/-- Resolve the section denoted by `selfPath` (names from the root,
inclusive) inside the tree rooted at `root`. -/
def locate (root : Stree) : List String → Option Stree
  | [] => none
  | n :: rest => if root.name == n then descend root rest else none

/-- The `full_path` of the section addressed by `selfPath`. -/
def fullPathOf (sep : String) (selfPath : List String) : String :=
  pyJoin sep selfPath

/-- The loop of `expand_sublevel`: replace each leading empty part by the
segment of `full_path` at the same index (consuming `fpp` keeps the two
indices in lockstep), stopping at the first non-empty part; reading past
the end of the full-path segments is a host `IndexError`. -/
def replaceLeading : List String → List String → Except TreeErr (List String)
  | _, [] => .ok []
  | fpp, p :: ps =>
    if p == "" then
      match fpp with
      | q :: qs => (replaceLeading qs ps).map (q :: ·)
      | [] => .error .indexError
    else .ok (p :: ps)

/-- Model of `Section.expand_sublevel(key)`, as a function of the data it reads from
`self`: its `full_path`, the names of its direct subsections, and the
separator. -/
def expandSublevel (fullPath : String) (childNames : List String)
    (sep key : String) : Except TreeErr String :=
  let parts := pySplit key sep
  if parts.length == 1 then .ok (fullPath ++ sep ++ key)
  else
    let parts :=
      if !(pyStartsWith key sep)
          && (match parts with
              | p :: _ => childNames.contains p
              | [] => false) then
        "" :: parts
      else parts
    let fpp := pySplit fullPath sep
    (replaceLeading fpp parts).map (pyJoin sep)

/-- Model of `Section.expand_sublevel` for the section at `selfPath` in `root`. -/
def Section.expand (root : Stree) (selfPath : List String) (sep key : String) :
    Except TreeErr String :=
  match locate root selfPath with
  | none => .error .selfNotInTree
  | some self => expandSublevel (fullPathOf sep selfPath) self.children.names sep key

/-- The `while` loop of `split_exist`: consume parts while each names an
existing child, returning the consumed (existing) prefix and the leftover
(missing) suffix. -/
def walkExist : Stree → List String → List String × List String
  | _, [] => ([], [])
  | t, c :: rest =>
    match findChild t.children c with
    | some child =>
      let (e, m) := walkExist child rest
      (c :: e, m)
    | none => ([], c :: rest)

/-- Model of `Section.split_exist(key)`: expand the key, then split its parts into
the existing prefix (walked from the toplevel) and the missing suffix.  The
first part must equal the toplevel's `full_path` (its name), else
`RuntimeError('Could not identify toplevel')`. -/
def Section.splitExist (root : Stree) (selfPath : List String) (sep key : String) :
    Except TreeErr (List String × List String) := do
  let path ← Section.expand root selfPath sep key
  let parts := pySplit path sep
  match parts with
  | [] => .error .indexError
  | cname :: rest =>
    if cname == root.name then
      let (e, m) := walkExist root rest
      .ok (cname :: e, m)
    else .error .badToplevel

/-- What `get_from_path` can return: a content value, a section, or the
implicit `None` when the path consists of the bare toplevel name (the
`while` loop body never runs and the method falls off its end). -/
inductive Entry where
  | val (v : Value) : Entry
  | sect (s : Stree) : Entry
  | pynone : Entry
deriving DecidableEq

/-- The walk of `get_from_path` after the toplevel name was consumed:
an empty terminal part returns the section reached; a terminal part
resolves to a content value, else a child section, else `MissingKeyError`;
an intermediate part must name a child section. -/
def gfpWalk : Stree → List String → Except TreeErr Entry
  | _, [] => .ok .pynone
  | sec, [name] =>
    if name == "" then .ok (.sect sec)
    else
      match lookupReg sec.content name with
      | some v => .ok (.val v)
      | none =>
        match findChild sec.children name with
        | some c => .ok (.sect c)
        | none => .error .missingKey
  | sec, name :: rest =>
    match findChild sec.children name with
    | some c => gfpWalk c rest
    | none => .error .missingKey

/-- Model of `Section.get_from_path(path)`: the path must start with the toplevel's
name (else `ValueError(f'Invalid path ...')`), then walk. -/
def Section.getFromPath (root : Stree) (sep path : String) : Except TreeErr Entry :=
  match pySplit path sep with
  | [] => .error .indexError
  | topname :: rest =>
    if root.name == topname then gfpWalk root rest
    else .error .invalidPath

/-- Append a freshly created subsection at the end of the ordered children
(`self.subsections[mname] = tmp` for a new key). -/
def appendChild : Strees → Stree → Strees
  | .nil, c => .cons c .nil
  | .cons h t, c => .cons h (appendChild t c)

/-- Rebuild the first child with the given name through `f` (the functional
counterpart of mutating the child object in place). -/
def mapChild : Strees → String → (Stree → Stree) → Strees
  | .nil, _, _ => .nil
  | .cons c rest, s, f =>
    if c.name == s then .cons (f c) rest else .cons c (mapChild rest s f)

/-- The chain of sections the creation loop of `add_subsection` builds for
the missing names `first :: rest`, each attached as the single child of the
previous. -/
def chainOf (first : String) : List String → Stree
  | [] => .mk first [] .nil
  | n :: rest => .mk first [] (.cons (chainOf n rest) .nil)

/-- The list `ret` of `add_subsection`: the created section objects in
creation order, each denoting (in the final tree) the chain hanging below
it. -/
def createdNodes (first : String) : List String → List Stree
  | [] => [chainOf first []]
  | n :: rest => chainOf first (n :: rest) :: createdNodes n rest

/-- Attach one new child subtree below the node reached by `segs`. -/
def attachAt : Stree → List String → Stree → Stree
  | .mk n c ch, [], newChild => .mk n c (appendChild ch newChild)
  | .mk n c ch, s :: rest, newChild =>
    .mk n c (mapChild ch s (fun child => attachAt child rest newChild))

/-- The return value of `add_subsection` with the default `squeeze=True`:
the single created section, or the list of created sections (possibly
empty). -/
inductive AddResult where
  | one (s : Stree) : AddResult
  | many (ss : List Stree) : AddResult
deriving DecidableEq

/-- Model of `Section.add_subsection(name)` (with the default `squeeze=True`):
split the expanded key into existing and missing parts, look up the section
at the existing prefix, then create and attach one node per missing name.
The model returns the updated root next to the source's return value. -/
def Section.addSubsection (root : Stree) (selfPath : List String) (sep key : String) :
    Except TreeErr (Stree × AddResult) := do
  let (ex, miss) ← Section.splitExist root selfPath sep key
  let target ← Section.getFromPath root sep (pyJoin sep (ex ++ [""]))
  match target with
  | .sect _ =>
    match ex, miss with
    | _, [] => .ok (root, .many [])
    | _ :: erest, m :: mrest =>
      let newRoot := attachAt root erest (chainOf m mrest)
      let created := createdNodes m mrest
      match created with
      | [single] => .ok (newRoot, .one single)
      | _ => .ok (newRoot, .many created)
    | [], _ :: _ => .error .indexError
  | _ => .error .nameError

/-- The terminal part of the expanded path (`path.pop(-1)`). -/
def lastSeg : List String → String
  | [] => ""
  | [x] => x
  | _ :: y :: rest => lastSeg (y :: rest)

/-- The walk of `Section.set` through the intermediate parts: every one
must name an existing subsection (else `MissingSubsectionError`), and the
value is stored in the reached section's content dict. -/
def setAt : Stree → List String → String → Value → Except TreeErr Stree
  | .mk n c ch, [], k, v => .ok (.mk n (assocSet c k v) ch)
  | .mk n c ch, s :: rest, k, v =>
    match findChild ch s with
    | none => .error .missingSubsection
    | some child =>
      (setAt child rest k v).map (fun child' => .mk n c (mapChild ch s (fun _ => child')))

/-- Model of `Section.set(key, value)`: expand the key, drop the first part
unchecked (`path.pop(0)`), take the last part as the content key
(`path.pop(-1)`), then walk the remaining parts from the toplevel. -/
def Section.set (root : Stree) (selfPath : List String) (sep key : String) (v : Value) :
    Except TreeErr Stree := do
  let path ← Section.expand root selfPath sep key
  let parts := pySplit path sep
  match parts with
  | [] => .error .indexError
  | [_] => .error .indexError
  | _ :: r :: rs =>
    setAt root ((r :: rs).dropLast) (lastSeg (r :: rs)) v

/-- Python dict `ret.update(other)`: insert every entry of `other` in
order, overwriting in place. -/
def dictUpdate {α : Type} (d : List (String × α)) : List (String × α) → List (String × α)
  | [] => d
  | (k, v) :: rest => dictUpdate (assocSet d k v) rest

mutual

/-- Model of `Section.find_values(name, squeeze=False)` for the section `t` whose
`full_path` is `selfFull`: the ordered dict from containing-section full
paths to values, next to the match count. -/
def findValues (sep name : String) : Stree → String → List (String × Value) × Nat
  | .mk _ content children, selfFull =>
    match lookupReg content name with
    | some v => findValuesChildren sep name children selfFull [(selfFull, v)] 1
    | none => findValuesChildren sep name children selfFull [] 0
termination_by structural t => t

/-- The loop `for subsec in self.subsections.values(): ...` of
`find_values`, threading the accumulated dict and count. -/
def findValuesChildren (sep name : String) :
    Strees → String → List (String × Value) → Nat → List (String × Value) × Nat
  | .nil, _, ret, n => (ret, n)
  | .cons c rest, selfFull, ret, n =>
    match findValues sep name c (selfFull ++ sep ++ c.name) with
    | (subdic, subn) => findValuesChildren sep name rest selfFull (dictUpdate ret subdic) (n + subn)
termination_by structural cs => cs

end

mutual

/-- Model of `Section.find_subsections(name)` for the section `t` whose `full_path`
is `selfFull`: the full paths, in traversal order, of every descendant
section named `name` (a matching child precedes the matches inside it). -/
def findSubsections (sep name : String) : Stree → String → List String
  | .mk _ _ children, selfFull => findSubsList sep name children selfFull
termination_by structural t => t

def findSubsList (sep name : String) : Strees → String → List String
  | .nil, _ => []
  | .cons c rest, parentFull =>
    (if c.name == name then [parentFull ++ sep ++ c.name] else [])
      ++ findSubsections sep name c (parentFull ++ sep ++ c.name)
      ++ findSubsList sep name rest parentFull
termination_by structural cs => cs

end

/-- The comprehension `[self.get_from_path(sec + self.sep) for sec in secs]`
of `Section.get`, keeping each section next to the full path it was found
under (in the source the two coincide: `sec.full_path` is the very string
`find_subsections` built).  The walk of a path produced by
`find_subsections` always ends at a section; any other outcome would make
the later `sec.full_path` attribute access a host error. -/
def resolveSecs (root : Stree) (sep : String) : List String → Except TreeErr (List (String × Stree))
  | [] => .ok []
  | p :: rest => do
    let e ← Section.getFromPath root sep (p ++ sep)
    match e with
    | .sect s => (resolveSecs root sep rest).map ((p, s) :: ·)
    | _ => .error .nameError

/-- The loop `for sec in secs: keypath = ...; vals[keypath] = sec` of
`Section.get`.  The parent path gets a trailing **literal** `'/'` appended
(`keypath += '/'` does not use `self.sep`).  The final value of the loop
variable `keypath` is returned as well, because a later branch of `get`
reads the stale variable. -/
def addSecEntries (sep : String) :
    List (String × Entry) → Option String → List (String × Stree) →
    List (String × Entry) × Option String
  | vals, last, [] => (vals, last)
  | vals, _, (p, s) :: rest =>
    let keypath := pyJoin sep (pySplit p sep).dropLast ++ "/"
    addSecEntries sep (assocSet vals keypath (.sect s)) (some keypath) rest

/-- The `direct_children` loop of `Section.get`.  The first branch tests a
trailing **literal** `'/'` and strips one character; it stores under the
stale loop variable `keypath` of the earlier section loop (a source-level
slip: the in-scope `keypth` is not used), which is a host `NameError` if
that loop never ran. -/
def buildDirect (selfFull : String) (lastKeypath : Option String) :
    List (String × Entry) → List (String × Entry) → Except TreeErr (List (String × Entry))
  | [], acc => .ok acc
  | (keypth, v) :: rest, acc =>
    if pyEndsWith keypth "/" && pyDropLast keypth == selfFull then
      match lastKeypath with
      | some kp => buildDirect selfFull lastKeypath rest (assocSet acc kp v)
      | none => .error .nameError
    else if keypth == selfFull then
      buildDirect selfFull lastKeypath rest (assocSet acc keypth v)
    else
      buildDirect selfFull lastKeypath rest acc

/-- The bare-key branch of `Section.get` (no separator in the key):
collect content matches and section-name matches in the subtree, apply the
direct-child preference when there is more than one candidate in total
(`NonUniqueKeyError` unless exactly one direct candidate remains), then
return `secs[0]` if there was no content match, else the first remaining
dict value. -/
def getBare (root : Stree) (sep : String) (self : Stree) (selfFull key : String) :
    Except TreeErr Entry := do
  let (valsV, n) := findValues sep key self selfFull
  let vals : List (String × Entry) := valsV.map (fun p => (p.1, .val p.2))
  let secPaths := findSubsections sep key self selfFull
  let secs ← resolveSecs root sep secPaths
  let (vals, lastKeypath) := addSecEntries sep vals none secs
  let total := n + secs.length
  if total == 0 then .error .missingKey
  else do
    let vals ←
      if total > 1 then do
        let direct ← buildDirect selfFull lastKeypath vals []
        if direct.length > 1 || direct.length == 0 then .error .nonUniqueKey
        else pure direct
      else pure vals
    if n == 0 then
      match secs with
      | (_, s) :: _ => .ok (.sect s)
      | [] => .error .indexError
    else
      match vals with
      | (_, e) :: _ => .ok e
      | [] => .error .stopIteration

/-- Model of `Section.get(key)` (`__getitem__`): bare keys (no separator substring)
go through the subtree search with direct-child preference; separator-
bearing keys are expanded and resolved as full paths. -/
def Section.get (root : Stree) (selfPath : List String) (sep key : String) :
    Except TreeErr Entry :=
  match locate root selfPath with
  | none => .error .selfNotInTree
  | some self =>
    if !(pyContains sep key) then
      getBare root sep self (fullPathOf sep selfPath) key
    else do
      let path ← expandSublevel (fullPathOf sep selfPath) self.children.names sep key
      Section.getFromPath root sep path

/-! ## Specification-side definitions and concrete example trees -/

/-- Modelled from the spec (§4.1, chained comparison): "evaluate left, then
for each (operator, next-operand) pair compute `operator(previous, next)`,
AND all pairwise results, and advance 'previous' to 'next' regardless of
the pairwise result."  This is the reference semantics the source's
`parse_Compare` is compared against. -/
def specCompareChain (env : ESEnv) (prev : Value) : CmpPairs → Except EvalErr Bool
  | .nil => .ok true
  | .cons op comparator rest => do
    let v ← parseNode env comparator
    let b ← cmpOpFun op prev v
    let brest ← specCompareChain env v rest
    .ok (truthy b && brest)

/-- Replace the node reached by `segs` by a new subtree (used to state what
`Section.set` does to the tree). -/
def replaceAt : Stree → List String → Stree → Stree
  | _, [], new => new
  | .mk n c ch, s :: rest, new =>
    .mk n c (mapChild ch s (fun child => replaceAt child rest new))

/-- Single-character split, the structural reference for `pySplit` when the
separator is one character (the shape of every separator the claims use). -/
def splitC (c : Char) : List Char → List (List Char)
  | [] => [[]]
  | x :: xs =>
    if x == c then [] :: splitC c xs
    else
      match splitC c xs with
      | [] => [[x]]
      | h :: t => (x :: h) :: t

/-- Single-character join, the structural reference for `pyJoin`. -/
def joinC (c : Char) : List (List Char) → List Char
  | [] => []
  | [p] => p
  | p :: q :: rest => p ++ c :: joinC c (q :: rest)

/-- The tree `top/sub1/sub2` used by the path-expansion examples. -/
def sub2T : Stree := .mk "sub2" [] .nil

def sub1T : Stree := .mk "sub1" [] (.cons sub2T .nil)

def topT : Stree := .mk "top" [] (.cons sub1T .nil)

/-- The tree `top/sub1/sub2` with one further child `sub3` below `sub2`. -/
def topT4 : Stree :=
  .mk "top" []
    (.cons (.mk "sub1" [] (.cons (.mk "sub2" [] (.cons (.mk "sub3" [] .nil) .nil)) .nil)) .nil)

/-- A section named `x` two levels below the root, with marker content. -/
def xDeepT : Stree := .mk "x" [("m", .int 1)] .nil

/-- A section named `x` directly below the root, with different content. -/
def xDirectT : Stree := .mk "x" [("k", .int 2)] .nil

/-- The ambiguity tree: root `top` with children `a` (holding the deep
section `top/a/x`) and the direct child `top/x`, in that insertion order. -/
def c2tree : Stree := .mk "top" [] (.cons (.mk "a" [] (.cons xDeepT .nil)) (.cons xDirectT .nil))

/-- Root with a content entry `y` and a grandchild *section* named `y`. -/
def c2tree2 : Stree :=
  .mk "top" [("y", .int 7)] (.cons (.mk "b" [] (.cons (.mk "y" [] .nil) .nil)) .nil)

/-- A bare root section named `top`. -/
def t0 : Stree := .mk "top" [] .nil

/-- Tree `top` with a single child also named `top`. -/
def t1 : Stree := .mk "top" [] (.cons (.mk "top" [] .nil) .nil)

/-- Tree `top` with a chain of two descendants named `top`. -/
def t2 : Stree := .mk "top" [] (.cons (.mk "top" [] (.cons (.mk "top" [] .nil) .nil)) .nil)

/-- Root `top` with one child `a` (and no `a/b`). -/
def c7tree : Stree := .mk "top" [] (.cons (.mk "a" [] .nil) .nil)

/-- Claim C1 (amended): the dispatcher of `parse_node` has exactly one
handler per allowed node kind; every node whose kind has no `parse_<Kind>`
handler is rejected, the moment it is dispatched, with an
`UnsupportedSyntax` error naming the node kind, and no handler (hence no
host execution primitive) runs for it.  The amendment: an expression whose
tree merely *contains* such a node may instead fail earlier with a
different error of an enclosing node (see the counterexample), so the
guarantee is per dispatched node, not per containing tree. -/
theorem claim_C1 (env : ESEnv) (n : PyNode)
    (h : hasParseHandler (className n) = false) :
    parseNode env n = .error (.unsupportedSyntax (className n)) := by
  cases n <;> first
    | rfl
    | (exfalso; simp [className, hasParseHandler] at h)

/-- Claim C1 witness: the amended theorem applied to a concrete `Lambda`
node under the default environment. -/
theorem claim_C1_witness :
    hasParseHandler (className (.lambdaK (.constant .pynone))) = false
    ∧ parseNode defaultEnv (.lambdaK (.constant .pynone))
        = .error (.unsupportedSyntax "Lambda") :=
  ⟨rfl, claim_C1 defaultEnv (.lambdaK (.constant .pynone)) rfl⟩

/-- Claim C1 counterexample: the tree of `nosuchfn(a.b)` contains an
`Attribute` node (a kind outside the whitelisted grammar), yet `evaluate`
fails with `UnknownFunction`, not with `UnsupportedSyntax` naming the kind:
`parse_Call` checks the registry before parsing its arguments. -/
theorem claim_C1_counterexample :
    parseNode defaultEnv
        (.module (.cons (.exprStmt (.call (.name "nosuchfn")
          (.cons (.attribute (.name "a") "b") .nil) .nil)) .nil))
      = .error (.unknownFunction "nosuchfn")
    ∧ ∀ kind : String,
        (Except.error (EvalErr.unknownFunction "nosuchfn") : Except EvalErr Value)
          ≠ .error (.unsupportedSyntax kind) := by
  refine ⟨rfl, ?_⟩
  intro kind h
  simp at h

/-- Claim C9: a string literal whose text exactly equals a registered
constant name evaluates to the constant value (not the string); a bare
identifier equal to a registered constant name evaluates to its value; a
bare identifier matching no registered constant evaluates to its own text
as a string rather than an error. -/
theorem claim_C9 (env : ESEnv) (cname : String) (v : Value) (uname : String)
    (hc : lookupReg env.constants cname = some v)
    (hu : lookupReg env.constants uname = none) :
    parseNode env (.constant (.str cname)) = .ok v
    ∧ parseNode env (.name cname) = .ok v
    ∧ parseNode env (.name uname) = .ok (.str uname) := by
  refine ⟨?_, ?_, ?_⟩ <;> simp [parseNode, hc, hu]

/-- Claim C9 witness: the theorem applied to the registry holding the
single constant `c = 5` and the unregistered identifier `undefined`. -/
theorem claim_C9_witness :
    parseNode { constants := [("c", .int 5)], functions := [] } (.constant (.str "c")) = .ok (.int 5)
    ∧ parseNode { constants := [("c", .int 5)], functions := [] } (.name "c") = .ok (.int 5)
    ∧ parseNode { constants := [("c", .int 5)], functions := [] } (.name "undefined") = .ok (.str "undefined") :=
  claim_C9 _ "c" (.int 5) "undefined" rfl rfl

-- sanity for C6 closed parts
example : parseNode defaultEnv (.call (.name "sin") (.cons (.constant (.int 0)) .nil) .nil) = .ok (.float 0) := rfl
example : parseNode defaultEnv (.call (.name "undefined_fn") (.cons (.constant (.int 1)) .nil) .nil) = .error (.unknownFunction "undefined_fn") := rfl

/-- The comparison loop of `parse_Compare` computes exactly the
specification chain: the conjunction of the pairwise results, with the
previous operand advancing regardless of each pairwise outcome. -/
theorem parseCmpChain_eq_spec (env : ESEnv) (ps : CmpPairs) (v : Value) :
    specCompareChain env v ps = (parseCmpChain env v ps).map (fun bs => bs.all id) := by
  match ps with
  | .nil => simp [parseCmpChain, specCompareChain, Except.map]
  | .cons op cmp rest =>
    have ih := fun w => parseCmpChain_eq_spec env rest w
    simp only [parseCmpChain, specCompareChain, bind, Except.bind]
    cases hv : parseNode env cmp with
    | error e => simp [Except.map]
    | ok w =>
      simp only
      cases hb : cmpOpFun op v w with
      | error e => simp [hb, Except.map]
      | ok b =>
        simp only [hb, ih w, Except.map]
        cases hrest : parseCmpChain env w rest with
        | error e => simp
        | ok bs => simp [List.all]
termination_by structural ps

/-- Claim C8: for every comparison chain, `evaluate` computes each
pairwise result, advances the previous operand to the next regardless of
the pairwise result, and returns the conjunction of all pairwise results
(the refinement against `specCompareChain`, written from the spec text);
concretely, `evaluate("1 < 2 < 3")` is `True` and `evaluate("1 < 3 < 2")`
is `False`. -/
theorem claim_C8 (env : ESEnv) (left : PyNode) (pairs : CmpPairs) :
    parseNode env (.compare left pairs)
      = (do
          let v0 ← parseNode env left
          let b ← specCompareChain env v0 pairs
          pure (Value.bool b))
    ∧ parseNode ⟨[], []⟩
        (.module (.cons (.exprStmt (.compare (.constant (.int 1))
          (.cons .lt (.constant (.int 2)) (.cons .lt (.constant (.int 3)) .nil)))) .nil))
        = .ok (.bool true)
    ∧ parseNode ⟨[], []⟩
        (.module (.cons (.exprStmt (.compare (.constant (.int 1))
          (.cons .lt (.constant (.int 3)) (.cons .lt (.constant (.int 2)) .nil)))) .nil))
        = .ok (.bool false) := by
  refine ⟨?_, rfl, rfl⟩
  simp only [parseNode, bind, Except.bind, pure, Except.pure]
  cases hl : parseNode env left with
  | error e => rfl
  | ok v0 =>
    simp only [parseCmpChain_eq_spec env pairs v0, Except.map]
    cases hc : parseCmpChain env v0 pairs with
    | error e => simp
    | ok bs => simp

/-- Claim C6 (amended): a bare-name call whose name is not in the
function registry fails with `UnknownFunction`; a call whose target is not
a simple name (attribute access, computed callable) fails with the host
`AttributeError` from `node.func.id` - not with `UnsupportedSyntax` as the
claim stated; a `*`-spread argument of a registered call fails with
`UnsupportedSyntax` naming `Starred`; a registered bare-name call applies
the registered callable to the evaluated positional and keyword arguments;
and under the default registry `sin(0)` evaluates to `0.0` while
`undefined_fn(1)` fails with `UnknownFunction`. -/
theorem claim_C6 (env : ESEnv)
    (g : String) (gargs : PyNodes) (gkws : Keywords)
    (hg : lookupReg env.functions g = none)
    (target : PyNode) (cargs : PyNodes) (ckws : Keywords)
    (ht : ∀ id, target ≠ .name id)
    (fname : String) (f : FuncImpl) (fargs : PyNodes) (fkws : Keywords)
    (vs : List Value) (kvs : List (Option String × Value))
    (hf : lookupReg env.functions fname = some f)
    (hvs : parseNodes env fargs = .ok vs)
    (hkvs : parseKeywords env fkws = .ok kvs)
    (sname : String) (sf : FuncImpl) (sexpr : PyNode) (srest : PyNodes) (skws : Keywords)
    (hs : lookupReg env.functions sname = some sf) :
    parseNode env (.call (.name g) gargs gkws) = .error (.unknownFunction g)
    ∧ parseNode env (.call target cargs ckws) = .error .attributeError
    ∧ parseNode env (.call (.name fname) fargs fkws) = applyRegistered f vs kvs
    ∧ parseNode env (.call (.name sname) (.cons (.starred sexpr) srest) skws)
        = .error (.unsupportedSyntax "Starred")
    ∧ parseNode defaultEnv (.call (.name "sin") (.cons (.constant (.int 0)) .nil) .nil)
        = .ok (.float 0)
    ∧ parseNode defaultEnv (.call (.name "undefined_fn") (.cons (.constant (.int 1)) .nil) .nil)
        = .error (.unknownFunction "undefined_fn") := by
  refine ⟨?_, ?_, ?_, ?_, rfl, rfl⟩
  · simp [parseNode, hg]
  · cases target <;> first
      | rfl
      | exact absurd rfl (ht _)
  · simp [parseNode, hf, hvs, hkvs, bind, Except.bind]
  · simp [parseNode, parseNodes, hs, bind, Except.bind, className]

/-- Claim C6 witness: the amended theorem applied to the default
environment, with `undefined_fn`, an attribute-call target `a.b`, the
registered `sin` at argument `0`, and a starred argument. -/
theorem claim_C6_witness :
    parseNode defaultEnv (.call (.name "undefined_fn")
        (.cons (.constant (.int 1)) .nil) .nil) = .error (.unknownFunction "undefined_fn")
    ∧ parseNode defaultEnv (.call (.attribute (.name "a") "b")
        (.cons (.constant (.int 1)) .nil) .nil) = .error .attributeError
    ∧ parseNode defaultEnv (.call (.name "sin") (.cons (.constant (.int 0)) .nil) .nil)
        = applyRegistered mathSin [.int 0] []
    ∧ parseNode defaultEnv (.call (.name "sin")
        (.cons (.starred (.name "a")) .nil) .nil) = .error (.unsupportedSyntax "Starred") := by
  have h := claim_C6 defaultEnv "undefined_fn" (.cons (.constant (.int 1)) .nil) .nil rfl
    (.attribute (.name "a") "b") (.cons (.constant (.int 1)) .nil) .nil
    (by intro id h; exact PyNode.noConfusion h)
    "sin" mathSin (.cons (.constant (.int 0)) .nil) .nil [.int 0] [] rfl rfl rfl
    "sin" mathSin (.name "a") .nil .nil rfl
  exact ⟨h.1, h.2.1, h.2.2.1, h.2.2.2.1⟩

/-- Claim C6 counterexample: an attribute-call target makes `evaluate`
fail with the host `AttributeError` (reading `.id` off an `Attribute`
node), which is neither `UnsupportedSyntax` nor `UnknownFunction`,
refuting the claimed error kind for non-bare-name call targets. -/
theorem claim_C6_counterexample :
    parseNode defaultEnv (.call (.attribute (.name "a") "b")
        (.cons (.constant (.int 1)) .nil) .nil) = .error .attributeError
    ∧ (∀ kind : String, EvalErr.attributeError ≠ .unsupportedSyntax kind)
    ∧ (∀ nm : String, EvalErr.attributeError ≠ .unknownFunction nm) := by
  refine ⟨rfl, ?_, ?_⟩ <;> intro x h <;> exact EvalErr.noConfusion h

/-- The replacement loop of `expand_sublevel` on a key with `k` leading
separators: the first `k` parts (all empty) become the first `k` segments
of the full path, and the remainder is kept verbatim, provided `k` does
not exceed the number of full-path segments. -/
theorem replaceLeading_replicate (r : String) (hr : r ≠ "") :
    ∀ (k : Nat) (fpp rs : List String), k ≤ fpp.length →
      replaceLeading fpp (List.replicate k "" ++ r :: rs) = .ok (fpp.take k ++ r :: rs) := by
  intro k
  induction k with
  | zero =>
    intro fpp rs _
    have hrb : (r == "") = false := by simp [hr]
    rw [List.replicate, List.nil_append, replaceLeading.eq_def]
    simp [hrb]
  | succ k ih =>
    intro fpp rs h
    cases fpp with
    | nil => simp at h
    | cons q qs =>
      have e1 := ih qs rs (by simpa using h)
      rw [List.replicate_succ, List.cons_append, replaceLeading.eq_def]
      simp [e1, Except.map]

/-- Claim C3: a key with no separator expands to `full_path + sep + key`
(whether or not it names a direct child - the hypothesis `h7` mirrors the
claim wording but is not needed by the code); a key with `k` leading
separators expands to the first `k` segments of `full_path` followed by
the remaining key segments verbatim; and on the tree `top/sub1/sub2`,
`sub2.expand` maps `sub3` to `top/sub1/sub2/sub3`, `/x` to `top/x` and
`//y` to `top/sub1/y`. -/
theorem claim_C3
    (fullPath : String) (childNames : List String) (sep key : String)
    (k : Nat) (r : String) (rs : List String) (key2 : String)
    (h1 : pySplit key sep = List.replicate k "" ++ r :: rs)
    (h2 : pyStartsWith key sep = true)
    (h3 : r ≠ "")
    (h4 : 1 ≤ k)
    (h5 : k ≤ (pySplit fullPath sep).length)
    (h6 : (pySplit key2 sep).length = 1)
    (h7 : childNames.contains key2 = false) :
    expandSublevel fullPath childNames sep key
        = .ok (pyJoin sep ((pySplit fullPath sep).take k ++ r :: rs))
    ∧ expandSublevel fullPath childNames sep key2 = .ok (fullPath ++ sep ++ key2)
    ∧ Section.expand topT ["top", "sub1", "sub2"] "/" "sub3" = .ok "top/sub1/sub2/sub3"
    ∧ Section.expand topT ["top", "sub1", "sub2"] "/" "/x" = .ok "top/x"
    ∧ Section.expand topT ["top", "sub1", "sub2"] "/" "//y" = .ok "top/sub1/y" := by
  refine ⟨?_, ?_, rfl, rfl, rfl⟩
  · simp only [expandSublevel, h1, h2]
    rw [if_neg (by simp; omega)]
    rw [if_neg (by simp)]
    rw [replaceLeading_replicate r h3 k _ rs h5]
    rfl
  · simp [expandSublevel, h6]

/-- Claim C3 witness: the theorem applied to the concrete full path
`top/sub1/sub2` with the keys `//y` and `sub3`. -/
theorem claim_C3_witness :
    expandSublevel "top/sub1/sub2" [] "/" "//y"
        = .ok (pyJoin "/" ((pySplit "top/sub1/sub2" "/").take 2 ++ "y" :: []))
    ∧ expandSublevel "top/sub1/sub2" [] "/" "sub3" = .ok ("top/sub1/sub2" ++ "/" ++ "sub3")
    ∧ Section.expand topT ["top", "sub1", "sub2"] "/" "sub3" = .ok "top/sub1/sub2/sub3"
    ∧ Section.expand topT ["top", "sub1", "sub2"] "/" "/x" = .ok "top/x"
    ∧ Section.expand topT ["top", "sub1", "sub2"] "/" "//y" = .ok "top/sub1/y" :=
  claim_C3 "top/sub1/sub2" [] "/" "//y" 2 "y" [] "sub3" rfl rfl
    (by decide) (by decide) (by decide) rfl rfl

/-- Claim C4 (amended): a separator-bearing key that does not start with
the separator and whose first segment names an existing direct child gets
an implicit leading separator inserted, so it expands to the FIRST segment
of `full_path` (the tree root name) followed by the separator and the key
- not to `full_path + sep + key` as the claim stated (the two agree only
when the section is the root). -/
theorem claim_C4
    (fullPath : String) (childNames : List String) (sep key : String)
    (p0 : String) (prest : List String) (f0 : String) (frest : List String)
    (h1 : pySplit key sep = p0 :: prest)
    (h2 : prest ≠ [])
    (h3 : pyStartsWith key sep = false)
    (h4 : childNames.contains p0 = true)
    (h5 : p0 ≠ "")
    (h6 : pySplit fullPath sep = f0 :: frest)
    (h7 : pyJoin sep (pySplit key sep) = key) :
    expandSublevel fullPath childNames sep key = .ok (f0 ++ sep ++ key) := by
  cases prest with
  | nil => exact absurd rfl h2
  | cons p1 ps =>
    have hjoin : pyJoin sep (p0 :: p1 :: ps) = key := by rw [← h1, h7]
    have hp0 : (p0 == "") = false := by simp [h5]
    have e1 : replaceLeading frest (p0 :: p1 :: ps) = .ok (p0 :: p1 :: ps) := by
      rw [replaceLeading.eq_def]
      simp [hp0]
    have e2 : replaceLeading (f0 :: frest) ("" :: p0 :: p1 :: ps) = .ok (f0 :: p0 :: p1 :: ps) := by
      rw [replaceLeading.eq_def]
      simp [e1, Except.map]
    simp only [expandSublevel, h1, h3, h6]
    rw [if_neg (by simp)]
    rw [if_pos (by simpa using h4)]
    rw [e2]
    rw [pyJoin] at hjoin
    simp [Except.map, pyJoin, hjoin]

/-- Claim C4 counterexample: on the tree `top/sub1/sub2` with `sub3` a
direct child of `sub2`, `sub2.expand("sub3/x")` returns `top/sub3/x`,
which differs from the claimed `top/sub1/sub2/sub3/x`. -/
theorem claim_C4_counterexample :
    Section.expand topT4 ["top", "sub1", "sub2"] "/" "sub3/x" = .ok "top/sub3/x"
    ∧ "top/sub3/x" ≠ "top/sub1/sub2" ++ "/" ++ "sub3/x" := by
  exact ⟨rfl, by decide⟩

/-- Claim C4 witness: the amended theorem applied to the section
`top/sub1/sub2` with direct child `sub3` and the key `sub3/x`. -/
theorem claim_C4_witness :
    expandSublevel "top/sub1/sub2" ["sub3"] "/" "sub3/x" = .ok ("top" ++ "/" ++ "sub3/x") :=
  claim_C4 "top/sub1/sub2" ["sub3"] "/" "sub3/x" "sub3" ["x"] "top" ["sub1", "sub2"]
    rfl (by decide) rfl rfl (by decide) rfl rfl

/-- Claim C2 (code bug): on the tree with children `a` (holding the
grandchild section `top/a/x`) and the direct child section `top/x`, the
bare-key lookup `get("x")` finds no content match (`n = 0`), computes the
direct-candidate filter - which selects exactly the direct child `top/x` -
but then returns `secs[0]`, the traversal-order-first DEEPER section
`top/a/x`, contradicting the direct-child preference of the claim and of
the surrounding code.  The last conjunct shows the content sub-case of the
claim does hold: a key that is both a direct content entry and a
grandchild section name resolves to the direct content value. -/
theorem claim_C2_code_bug :
    Section.get c2tree ["top"] "/" "x" = .ok (.sect xDeepT)
    ∧ findChild c2tree.children "x" = some xDirectT
    ∧ xDeepT ≠ xDirectT
    ∧ Section.get c2tree2 ["top"] "/" "y" = .ok (.val (.int 7)) := by
  exact ⟨rfl, rfl, by decide, rfl⟩

/-- Claim C10: a key whose run of leading separators exceeds the number
of segments of the section full path makes `expand_sublevel` raise the
unnamed host `IndexError` (indexing past the end of the full-path segment
list), and `get`, `set` and `add_subsection` all propagate that same error
because they normalize through the expansion first. -/
theorem claim_C10
    (root : Stree) (selfPath : List String) (sep key : String)
    (k : Nat) (rest : List String) (v : Value) (self : Stree)
    (f0 : String) (frest : List String)
    (hloc : locate root selfPath = some self)
    (hsplit : pySplit key sep = List.replicate k "" ++ rest)
    (hfpp : pySplit (fullPathOf sep selfPath) sep = f0 :: frest)
    (hk : (f0 :: frest).length < k)
    (hstart : pyStartsWith key sep = true)
    (hcont : pyContains sep key = true) :
    Section.expand root selfPath sep key = .error .indexError
    ∧ Section.get root selfPath sep key = .error .indexError
    ∧ Section.set root selfPath sep key v = .error .indexError
    ∧ Section.addSubsection root selfPath sep key = .error .indexError := by
  have hrl : ∀ (k : Nat) (fpp : List String), fpp.length < k →
      replaceLeading fpp (List.replicate k "" ++ rest) = .error .indexError := by
    intro k
    induction k with
    | zero => intro fpp h; omega
    | succ k ih =>
      intro fpp h
      cases fpp with
      | nil =>
        rw [List.replicate_succ, List.cons_append, replaceLeading.eq_def]
        simp
      | cons q qs =>
        have e1 := ih qs (by simpa using h)
        rw [List.replicate_succ, List.cons_append, replaceLeading.eq_def]
        simp [e1, Except.map]
  have hexpS : expandSublevel (fullPathOf sep selfPath) self.children.names sep key
      = .error .indexError := by
    simp only [expandSublevel, hsplit, hstart, hfpp]
    rw [if_neg (by have hk2 : frest.length + 1 < k := by simpa using hk
                   simp; omega)]
    rw [if_neg (by simp)]
    rw [hrl k (f0 :: frest) hk]
    rfl
  have hexp : Section.expand root selfPath sep key = .error .indexError := by
    simp [Section.expand, hloc, hexpS]
  refine ⟨hexp, ?_, ?_, ?_⟩
  · simp [Section.get, hloc, hcont, hexpS, bind, Except.bind]
  · simp [Section.set, Section.expand, hloc, hexpS, bind, Except.bind]
  · simp [Section.addSubsection, Section.splitExist, Section.expand, hloc, hexpS,
      bind, Except.bind]

/-- Claim C10 witness: the theorem applied to a bare root `top` and the
key `//x` (two leading separators against a one-segment full path). -/
theorem claim_C10_witness :
    Section.expand t0 ["top"] "/" "//x" = .error .indexError
    ∧ Section.get t0 ["top"] "/" "//x" = .error .indexError
    ∧ Section.set t0 ["top"] "/" "//x" (.int 1) = .error .indexError
    ∧ Section.addSubsection t0 ["top"] "/" "//x" = .error .indexError :=
  claim_C10 t0 ["top"] "/" "//x" 2 ["x"] (.int 1) t0 "top" [] rfl rfl rfl
    (by decide) rfl rfl

/-- The terminal element of a parts list (`path.pop(-1)`). -/
theorem lastSeg_concat : ∀ (l : List String) (x : String), lastSeg (l ++ [x]) = x
  | [], _ => rfl
  | [_], _ => rfl
  | _ :: b :: bs, x => lastSeg_concat (b :: bs) x

/-- Rebuilding the first child with a given name does not depend on how
the replacement is computed from it, once that child is known. -/
theorem mapChild_const (s : String) (f : Stree → Stree) :
    ∀ (ch : Strees) (c : Stree), findChild ch s = some c →
      mapChild ch s f = mapChild ch s (fun _ => f c)
  | .nil, c, h => by simp [findChild] at h
  | .cons c0 rest, c, h => by
    by_cases h0 : (c0.name == s) = true
    · simp [findChild, h0] at h
      subst h
      simp [mapChild, h0]
    · simp [findChild, h0] at h
      simp [mapChild, h0, mapChild_const s f rest c h]

/-- The walk of `Section.set` fails with `MissingSubsectionError` exactly
when some intermediate segment does not name an existing subsection. -/
theorem setAt_missing (k : String) (v : Value) :
    ∀ (mid : List String) (t : Stree), descend t mid = none →
      setAt t mid k v = .error .missingSubsection := by
  intro mid
  induction mid with
  | nil => intro t h; simp [descend] at h
  | cons s rest ih =>
    intro t h
    cases t with
    | mk n ct ch =>
      cases hf : findChild ch s with
      | none => simp [setAt, hf]
      | some child =>
        have hd : descend child rest = none := by
          simpa [descend, Stree.children, hf] using h
        simp [setAt, hf, ih child hd, Except.map]

/-- When every intermediate segment exists, the walk of `Section.set`
stores the value in the reached section content, leaving the rest of the
tree unchanged. -/
theorem setAt_found (k : String) (v : Value) :
    ∀ (mid : List String) (t tgt : Stree), descend t mid = some tgt →
      setAt t mid k v
        = .ok (replaceAt t mid (.mk tgt.name (assocSet tgt.content k v) tgt.children)) := by
  intro mid
  induction mid with
  | nil =>
    intro t tgt h
    simp [descend] at h
    subst h
    cases t with
    | mk n ct ch => simp [setAt, replaceAt, Stree.name, Stree.content, Stree.children]
  | cons s rest ih =>
    intro t tgt h
    cases t with
    | mk n ct ch =>
      cases hf : findChild ch s with
      | none => simp [descend, Stree.children, hf] at h
      | some child =>
        have hd : descend child rest = some tgt := by
          simpa [descend, Stree.children, hf] using h
        simp [setAt, hf, ih child tgt hd, replaceAt, Except.map,
          mapChild_const s _ ch child hf]

/-- Claim C7: `set(key, value)` normalizes the key through
`expand_sublevel`; if any intermediate segment of the resulting path does
not name an existing section the call fails with `MissingSubsection`
(and, the model being functional, no section is created); otherwise the
value is inserted or overwritten under the final segment in the reached
section content map.  Concretely, `set("a/b/c", v)` on a tree where `a`
exists but `a/b` does not fails with `MissingSubsection`. -/
theorem claim_C7
    (root : Stree) (selfPath : List String) (sep key : String) (v : Value)
    (P p0 lastKey : String) (mid : List String)
    (hexp : Section.expand root selfPath sep key = .ok P)
    (hsplit : pySplit P sep = p0 :: (mid ++ [lastKey])) :
    (descend root mid = none →
      Section.set root selfPath sep key v = .error .missingSubsection)
    ∧ (∀ tgt, descend root mid = some tgt →
        Section.set root selfPath sep key v
          = .ok (replaceAt root mid (.mk tgt.name (assocSet tgt.content lastKey v) tgt.children)))
    ∧ Section.set c7tree ["top"] "/" "a/b/c" (.int 5) = .error .missingSubsection := by
  have hred : Section.set root selfPath sep key v = setAt root mid lastKey v := by
    cases mid with
    | nil =>
      simp [Section.set, hexp, hsplit, bind, Except.bind, lastSeg]
    | cons m ms =>
      have hdl : (m :: (ms ++ [lastKey])).dropLast = m :: ms := by
        rw [show m :: (ms ++ [lastKey]) = (m :: ms) ++ [lastKey] from rfl]
        exact List.dropLast_concat
      have hls : lastSeg (m :: (ms ++ [lastKey])) = lastKey := lastSeg_concat (m :: ms) lastKey
      simp [Section.set, hexp, hsplit, bind, Except.bind, hdl, hls]
  refine ⟨?_, ?_, rfl⟩
  · intro h
    rw [hred]
    exact setAt_missing lastKey v mid root h
  · intro tgt h
    rw [hred]
    exact setAt_found lastKey v mid root tgt h

/-- Claim C7 witness: the theorem applied to the tree `top/a` and the
key `a/b/c`. -/
theorem claim_C7_witness :
    Section.set c7tree ["top"] "/" "a/b/c" (.int 5) = .error .missingSubsection :=
  (claim_C7 c7tree ["top"] "/" "a/b/c" (.int 5) "top/a/b/c" "top" "c" ["a", "b"]
    rfl rfl).1 rfl

theorem attachAt_name : ∀ (t : Stree) (segs : List String) (x : Stree),
    (attachAt t segs x).name = t.name
  | .mk _ _ _, [], _ => rfl
  | .mk _ _ _, _ :: _, _ => rfl

theorem chainOf_name : ∀ (first : String) (rest : List String),
    (chainOf first rest).name = first
  | _, [] => rfl
  | _, _ :: _ => rfl

theorem walkExist_append : ∀ (ps : List String) (t : Stree) (e m : List String),
    walkExist t ps = (e, m) → ps = e ++ m := by
  intro ps
  induction ps with
  | nil =>
    intro t e m h
    simp [walkExist] at h
    simp [h.1, h.2]
  | cons p rest ih =>
    intro t e m h
    cases hf : findChild t.children p with
    | some child =>
      cases hw : walkExist child rest with
      | mk e' m' =>
        simp [walkExist, hf, hw] at h
        rw [← h.1, ← h.2]
        simp [ih child e' m' hw]
    | none =>
      simp [walkExist, hf] at h
      rw [h.1]
      simpa using h.2

theorem findChild_cons (c0 : Stree) (rest : Strees) (n : String) :
    findChild (.cons c0 rest) n = if c0.name == n then some c0 else findChild rest n := by
  rw [findChild.eq_def]

theorem mapChild_cons (c0 : Stree) (rest : Strees) (s : String) (f : Stree → Stree) :
    mapChild (.cons c0 rest) s f
      = if c0.name == s then .cons (f c0) rest else .cons c0 (mapChild rest s f) := by
  rw [mapChild.eq_def]

theorem appendChild_cons (c0 : Stree) (rest : Strees) (x : Stree) :
    appendChild (.cons c0 rest) x = .cons c0 (appendChild rest x) := rfl

theorem findChild_appendChild_none (n : String) (x : Stree) :
    ∀ (ch : Strees), findChild ch n = none → (x.name == n) = true →
      findChild (appendChild ch x) n = some x
  | .nil, _, hx => by
    show findChild (.cons x .nil) n = some x
    rw [findChild_cons]
    simp [hx]
  | .cons c0 rest, h, hx => by
    rw [findChild_cons] at h
    by_cases h0 : (c0.name == n) = true
    · simp [h0] at h
    · simp only [h0, Bool.false_eq_true, if_false] at h
      rw [appendChild_cons, findChild_cons]
      simp only [h0, Bool.false_eq_true, if_false]
      exact findChild_appendChild_none n x rest h hx

theorem findChild_appendChild_some (n : String) (x : Stree) :
    ∀ (ch : Strees) (c : Stree), findChild ch n = some c →
      findChild (appendChild ch x) n = some c
  | .nil, _, h => by rw [findChild.eq_def] at h; exact Option.noConfusion h
  | .cons c0 rest, c, h => by
    rw [findChild_cons] at h
    by_cases h0 : (c0.name == n) = true
    · simp only [h0, if_true] at h
      rw [appendChild_cons, findChild_cons]
      simp [h0, h]
    · simp only [h0, Bool.false_eq_true, if_false] at h
      rw [appendChild_cons, findChild_cons]
      simp only [h0, Bool.false_eq_true, if_false]
      exact findChild_appendChild_some n x rest c h

theorem findChild_mapChild_eq (s : String) (f : Stree → Stree)
    (hf : ∀ t, (f t).name = t.name) :
    ∀ (ch : Strees) (c : Stree), findChild ch s = some c →
      findChild (mapChild ch s f) s = some (f c)
  | .nil, _, h => by rw [findChild.eq_def] at h; exact Option.noConfusion h
  | .cons c0 rest, c, h => by
    rw [findChild_cons] at h
    by_cases h0 : (c0.name == s) = true
    · simp only [h0, if_true] at h
      rw [mapChild_cons]
      simp only [h0, if_true]
      rw [findChild_cons]
      have hfs : ((f c0).name == s) = true := by rw [hf c0]; exact h0
      have hc : c0 = c := by simpa using h
      subst hc
      simp [hfs]
    · simp only [h0, Bool.false_eq_true, if_false] at h
      rw [mapChild_cons]
      simp only [h0, Bool.false_eq_true, if_false]
      rw [findChild_cons]
      simp only [h0, Bool.false_eq_true, if_false]
      exact findChild_mapChild_eq s f hf rest c h

theorem findChild_mapChild_ne (s n : String) (f : Stree → Stree)
    (hf : ∀ t, (f t).name = t.name) (hne : n ≠ s) :
    ∀ (ch : Strees), findChild (mapChild ch s f) n = findChild ch n
  | .nil => rfl
  | .cons c0 rest => by
    by_cases h0 : (c0.name == s) = true
    · have hs : c0.name = s := by simpa using h0
      have hcn : (c0.name == n) = false := by
        simp [hs]
        exact fun hsn => hne hsn.symm
      have hfn : ((f c0).name == n) = false := by rw [hf c0]; exact hcn
      rw [mapChild_cons]
      simp only [h0, if_true]
      rw [findChild_cons, findChild_cons]
      simp [hcn, hfn]
    · rw [mapChild_cons]
      simp only [h0, Bool.false_eq_true, if_false]
      rw [findChild_cons, findChild_cons]
      by_cases hcn : (c0.name == n) = true
      · simp [hcn]
      · simp only [hcn, Bool.false_eq_true, if_false]
        exact findChild_mapChild_ne s n f hf hne rest

theorem walkExist_chain : ∀ (rest : List String) (first : String),
    walkExist (chainOf first rest) rest = (rest, []) := by
  intro rest
  induction rest with
  | nil => intro first; rfl
  | cons n nr ih =>
    intro first
    have hn : ((chainOf n nr).name == n) = true := by simp [chainOf_name]
    simp [chainOf, walkExist, Stree.children, findChild, hn, ih n]

theorem attachAt_cons (n : String) (ct : List (String × Value)) (ch : Strees)
    (e1 : String) (es : List String) (x : Stree) :
    attachAt (.mk n ct ch) (e1 :: es) x
      = .mk n ct (mapChild ch e1 (fun child => attachAt child es x)) := rfl

theorem attachAt_nil_seg (n : String) (ct : List (String × Value)) (ch : Strees) (x : Stree) :
    attachAt (.mk n ct ch) [] x = .mk n ct (appendChild ch x) := rfl

/-- After the creation loop of `add_subsection` attached the missing chain,
walking the full expanded path from the root finds every segment. -/
theorem walkExist_attach : ∀ (e : List String) (root : Stree) (rest : List String)
    (mh : String) (mt : List String), walkExist root rest = (e, mh :: mt) →
      walkExist (attachAt root e (chainOf mh mt)) rest = (rest, []) := by
  intro e
  induction e with
  | nil =>
    intro root rest mh mt hw
    have hrm : rest = mh :: mt := by
      have := walkExist_append rest root [] (mh :: mt) hw
      simpa using this
    subst hrm
    cases root with
    | mk n ct ch =>
      have hfc : findChild ch mh = none := by
        cases hf : findChild ch mh with
        | none => rfl
        | some child =>
          rw [walkExist.eq_def] at hw
          simp only [Stree.children] at hw
          rw [hf] at hw
          simp at hw
      rw [attachAt_nil_seg]
      rw [walkExist.eq_def]
      simp only [Stree.children]
      rw [findChild_appendChild_none mh (chainOf mh mt) ch hfc (by simp [chainOf_name])]
      simp [walkExist_chain mt mh]
  | cons e1 es ih =>
    intro root rest mh mt hw
    cases root with
    | mk n ct ch =>
      cases rest with
      | nil =>
        rw [walkExist.eq_def] at hw
        simp at hw
      | cons c rrest =>
        rw [walkExist.eq_def] at hw
        simp only [Stree.children] at hw
        cases hf : findChild ch c with
        | none =>
          rw [hf] at hw
          simp at hw
        | some child =>
          rw [hf] at hw
          simp at hw
          cases hwc : walkExist child rrest with
          | mk e' m' =>
            rw [hwc] at hw
            simp at hw
            obtain ⟨⟨hc, he⟩, hm'⟩ := hw
            have hwc2 : walkExist child rrest = (es, mh :: mt) := by
              rw [hwc, he, hm']
            have hf2 : findChild ch e1 = some child := by rw [← hc]; exact hf
            rw [attachAt_cons]
            rw [walkExist.eq_def]
            simp only [Stree.children]
            rw [hc]
            rw [findChild_mapChild_eq e1 _ (fun t => attachAt_name t es (chainOf mh mt)) ch child hf2]
            simp [ih child rrest mh mt hwc2]

theorem descend_of_walkExist : ∀ (ps : List String) (t : Stree),
    walkExist t ps = (ps, []) → ∃ x, descend t ps = some x := by
  intro ps
  induction ps with
  | nil => intro t _; exact ⟨t, rfl⟩
  | cons c rest ih =>
    intro t hw
    cases t with
    | mk n ct ch =>
      rw [walkExist.eq_def] at hw
      simp only [Stree.children] at hw
      cases hf : findChild ch c with
      | none =>
        rw [hf] at hw
        simp at hw
      | some child =>
        rw [hf] at hw
        simp at hw
        cases hwc : walkExist child rest with
        | mk e' m' =>
          rw [hwc] at hw
          simp at hw
          have hwc2 : walkExist child rest = (rest, []) := by rw [hwc, hw.1, hw.2]
          obtain ⟨x, hx⟩ := ih child hwc2
          exact ⟨x, by simp [descend, Stree.children, hf, hx]⟩

theorem gfp_section : ∀ (ps : List String) (t x : Stree),
    descend t ps = some x → gfpWalk t (ps ++ [""]) = .ok (.sect x) := by
  intro ps
  induction ps with
  | nil =>
    intro t x h
    simp [descend] at h
    subst h
    rfl
  | cons c rest ih =>
    intro t x h
    cases hf : findChild t.children c with
    | none => simp [descend, hf] at h
    | some child =>
      have hd : descend child rest = some x := by simpa [descend, hf] using h
      have : gfpWalk t ((c :: rest) ++ [""]) = gfpWalk child (rest ++ [""]) := by
        rw [gfpWalk.eq_def]
        cases rest with
        | nil => simp [hf]
        | cons r rs => simp [hf]
      rw [this, ih child x hd]

theorem descend_attach : ∀ (ps : List String) (t : Stree) (e : List String) (x c : Stree),
    descend t ps = some x → ∃ y, descend (attachAt t e c) ps = some y := by
  intro ps
  induction ps with
  | nil => intro t e x c _; exact ⟨attachAt t e c, rfl⟩
  | cons p ps' ih =>
    intro t e x c h
    cases t with
    | mk n ct ch =>
      cases hf : findChild ch p with
      | none => simp [descend, Stree.children, hf] at h
      | some child =>
        have hd : descend child ps' = some x := by
          simpa [descend, Stree.children, hf] using h
        cases e with
        | nil =>
          refine ⟨x, ?_⟩
          rw [attachAt_nil_seg]
          simp [descend, Stree.children,
            findChild_appendChild_some p c ch child hf, hd]
        | cons e1 es =>
          rw [attachAt_cons]
          by_cases hpe : p = e1
          · subst hpe
            obtain ⟨y, hy⟩ := ih child es x c hd
            refine ⟨y, ?_⟩
            simp [descend, Stree.children,
              findChild_mapChild_eq p _ (fun t => attachAt_name t es c) ch child hf, hy]
          · refine ⟨x, ?_⟩
            simp [descend, Stree.children,
              findChild_mapChild_ne e1 p _ (fun t => attachAt_name t es c) hpe ch, hf, hd]

theorem locate_attach (selfPath : List String) (root : Stree) (e : List String)
    (x : Stree) (ch : Stree) (h : locate root selfPath = some x) :
    ∃ y, locate (attachAt root e ch) selfPath = some y := by
  cases selfPath with
  | nil => simp [locate] at h
  | cons n rest =>
    by_cases hn : (root.name == n) = true
    · simp only [locate, hn, if_true] at h
      obtain ⟨y, hy⟩ := descend_attach rest root e x ch h
      refine ⟨y, ?_⟩
      have : ((attachAt root e ch).name == n) = true := by
        rw [attachAt_name]
        exact hn
      simp only [locate, this, if_true]
      exact hy
    · simp [locate, hn] at h

/-- Under either of the two key shapes the second `ensurePath` call can
meet (`§4.2`), `expand_sublevel` ignores the direct-subsection names, so a
tree mutation between two calls cannot change the expansion. -/
theorem expandSublevel_childNames (fullPath sep key : String)
    (cn1 cn2 : List String)
    (hkey : (pySplit key sep).length = 1 ∨ pyStartsWith key sep = true) :
    expandSublevel fullPath cn1 sep key = expandSublevel fullPath cn2 sep key := by
  cases hkey with
  | inl h => simp [expandSublevel, h]
  | inr h =>
    by_cases hl : ((pySplit key sep).length == 1) = true
    · simp [expandSublevel, hl]
    · simp [expandSublevel, hl, h]

theorem strEta (s : String) : String.mk s.data = s := by cases s; rfl

theorem splitC_ne_nil (c : Char) : ∀ (cs : List Char), splitC c cs ≠ []
  | [] => by simp [splitC]
  | x :: xs => by
    by_cases h : (x == c) = true
    · simp [splitC, h]
    · simp only [splitC, h, Bool.false_eq_true, if_false]
      cases hs : splitC c xs with
      | nil => exact absurd hs (splitC_ne_nil c xs)
      | cons hh tt => simp

theorem splitC_no_c (c : Char) : ∀ (cs chunk : List Char), chunk ∈ splitC c cs → c ∉ chunk
  | [], chunk, h => by
    simp [splitC] at h
    subst h
    simp
  | x :: xs, chunk, h => by
    by_cases hx : (x == c) = true
    · simp only [splitC, hx, if_true] at h
      cases h with
      | head => simp
      | tail _ h2 => exact splitC_no_c c xs chunk h2
    · simp only [splitC, hx, Bool.false_eq_true, if_false] at h
      cases hs : splitC c xs with
      | nil => exact absurd hs (splitC_ne_nil c xs)
      | cons hh tt =>
        rw [hs] at h
        have hhmem : hh ∈ splitC c xs := by rw [hs]; exact List.mem_cons_self hh tt
        cases h with
        | head =>
          intro hmem
          cases hmem with
          | head => simp at hx
          | tail _ hmem2 => exact splitC_no_c c xs hh hhmem hmem2
        | tail _ h2 =>
          have : chunk ∈ splitC c xs := by rw [hs]; exact List.mem_cons_of_mem hh h2
          exact splitC_no_c c xs chunk this

theorem splitC_single (c : Char) : ∀ (p : List Char), c ∉ p → splitC c p = [p]
  | [], _ => rfl
  | x :: xs, h => by
    have hx : (x == c) = false := by
      simp
      intro he
      exact absurd (he ▸ List.mem_cons_self x xs) h
    have hxs : c ∉ xs := fun hm => h (List.mem_cons_of_mem x hm)
    simp [splitC, hx, splitC_single c xs hxs]

theorem splitC_sep (c : Char) : ∀ (p ds : List Char), c ∉ p →
    splitC c (p ++ c :: ds) = p :: splitC c ds
  | [], ds, _ => by simp [splitC]
  | x :: xs, ds, h => by
    have hx : (x == c) = false := by
      simp
      intro he
      exact absurd (he ▸ List.mem_cons_self x xs) h
    have hxs : c ∉ xs := fun hm => h (List.mem_cons_of_mem x hm)
    have ih := splitC_sep c xs ds hxs
    simp only [List.cons_append, splitC, hx, Bool.false_eq_true, if_false]
    have ih2 : splitC c (xs.append (c :: ds)) = xs :: splitC c ds := ih
    rw [ih2]

theorem splitC_join (c : Char) : ∀ (parts : List (List Char)), parts ≠ [] →
    (∀ p ∈ parts, c ∉ p) → splitC c (joinC c parts) = parts
  | [], h, _ => absurd rfl h
  | [p], _, hp => by
    simp only [joinC]
    exact splitC_single c p (hp p (by simp))
  | p :: q :: rest, _, hp => by
    have ih := splitC_join c (q :: rest) (by simp)
      (fun r hr => hp r (List.mem_cons_of_mem _ hr))
    simp only [joinC]
    rw [splitC_sep c p _ (hp p (by simp)), ih]

theorem beq_comm_char (c x : Char) : (c == x) = (x == c) := by
  by_cases h : c = x
  · subst h; rfl
  · have h1 : (c == x) = false := by simp [h]
    have h2 : (x == c) = false := by simp; exact fun he => h he.symm
    rw [h1, h2]

theorem pySplitAux_splitC (c : Char) : ∀ (fuel : Nat) (cs acc hd : List Char) (tl : List (List Char)),
    cs.length ≤ fuel → splitC c cs = hd :: tl →
    pySplitAux [c] cs acc fuel = String.mk (acc.reverse ++ hd) :: tl.map String.mk := by
  intro fuel
  induction fuel with
  | zero =>
    intro cs acc hd tl hlen hs
    cases cs with
    | nil =>
      simp [splitC] at hs
      simp [pySplitAux, hs.1, hs.2]
    | cons x xs => simp at hlen
  | succ fuel ih =>
    intro cs acc hd tl hlen hs
    cases cs with
    | nil =>
      simp [splitC] at hs
      simp [pySplitAux, hs.1, hs.2]
    | cons x xs =>
      have hxslen : xs.length ≤ fuel := by simpa using hlen
      have hpre : ([c].isPrefixOf (x :: xs)) = (x == c) := by
        show ((c == x) && List.isPrefixOf [] xs) = (x == c)
        simp [List.isPrefixOf, beq_comm_char]
      by_cases hx : (x == c) = true
      · simp only [splitC, hx, if_true] at hs
        have hhd : hd = [] := by
          have := List.cons.injEq .. ▸ hs
          exact (List.cons.inj hs).1.symm
        have htl : tl = splitC c xs := (List.cons.inj hs).2.symm
        rw [pySplitAux.eq_def]
        simp only [hpre, hx, if_true]
        cases hxs : splitC c xs with
        | nil => exact absurd hxs (splitC_ne_nil c xs)
        | cons hh tt =>
          rw [show (x :: xs).drop [c].length = xs by simp]
          rw [ih xs [] hh tt hxslen hxs]
          simp [hhd, htl, hxs]
      · simp only [splitC, hx, Bool.false_eq_true, if_false] at hs
        cases hxs : splitC c xs with
        | nil => exact absurd hxs (splitC_ne_nil c xs)
        | cons hh tt =>
          rw [hxs] at hs
          have hhd : hd = x :: hh := (List.cons.inj hs).1.symm
          have htl : tl = tt := (List.cons.inj hs).2.symm
          rw [pySplitAux.eq_def]
          simp only [hpre, hx, Bool.false_eq_true, if_false]
          rw [ih xs (x :: acc) hh tt hxslen hxs]
          simp [hhd, htl]

theorem pySplit_splitC (c : Char) (s : String) :
    pySplit s (String.mk [c]) = (splitC c s.data).map String.mk := by
  cases hs : splitC c s.data with
  | nil => exact absurd hs (splitC_ne_nil c s.data)
  | cons hh tt =>
    show (if ([c] : List Char).isEmpty then [s]
      else pySplitAux [c] s.data [] s.data.length) = _
    rw [if_neg (by simp)]
    rw [pySplitAux_splitC c s.data.length s.data [] hh tt (le_refl _) hs]
    simp

theorem pyJoin_data (c : Char) : ∀ (parts : List String),
    (pyJoin (String.mk [c]) parts).data = joinC c (parts.map String.data)
  | [] => rfl
  | [x] => by simp [pyJoin, joinC]
  | x :: y :: rest => by
    have ih := pyJoin_data c (y :: rest)
    show (x ++ String.mk [c] ++ pyJoin (String.mk [c]) (y :: rest)).data
      = joinC c (x.data :: (y :: rest).map String.data)
    rw [show joinC c (x.data :: (y :: rest).map String.data)
        = x.data ++ c :: joinC c ((y :: rest).map String.data) by
      cases rest <;> rfl]
    rw [← ih]
    simp [String.data_append]

theorem pyRoundtrip (c : Char) (parts : List String) (hne : parts ≠ [])
    (hc : ∀ p ∈ parts, c ∉ p.data) :
    pySplit (pyJoin (String.mk [c]) parts) (String.mk [c]) = parts := by
  rw [pySplit_splitC, pyJoin_data]
  rw [splitC_join c (parts.map String.data) (by simpa using hne)
    (by intro q hq
        obtain ⟨p, hp, rfl⟩ := List.mem_map.mp hq
        exact hc p hp)]
  rw [List.map_map]
  have : ∀ p ∈ parts, (String.mk ∘ String.data) p = id p := by
    intro p _
    simp [strEta]
  rw [List.map_congr_left this, List.map_id]

theorem chunks_no_c (c : Char) (s : String) :
    ∀ x ∈ pySplit s (String.mk [c]), c ∉ x.data := by
  rw [pySplit_splitC]
  intro x hx
  obtain ⟨q, hq, rfl⟩ := List.mem_map.mp hx
  exact splitC_no_c c s.data q hq

/-- Claim C5 (amended): for a single-character separator and a path that
either contains no separator or starts with one, a second
`add_subsection` call with the same path creates no new sections and
leaves the tree unchanged - but it returns the EMPTY list, not the
existing node(s) created by the first call as the claim stated.  (For a
separator-bearing path that does not start with the separator the second
call can even create further nodes: see the counterexample.) -/
theorem claim_C5 (root : Stree) (selfPath : List String) (c : Char) (key : String)
    (t' : Stree) (r : AddResult)
    (hkey : (pySplit key (String.mk [c])).length = 1
      ∨ pyStartsWith key (String.mk [c]) = true)
    (h1 : Section.addSubsection root selfPath (String.mk [c]) key = .ok (t', r)) :
    Section.addSubsection t' selfPath (String.mk [c]) key = .ok (t', .many []) := by
  cases hloc : locate root selfPath with
  | none =>
    simp [Section.addSubsection, Section.splitExist, Section.expand, hloc,
      bind, Except.bind] at h1
  | some self =>
    cases hexS : expandSublevel (fullPathOf (String.mk [c]) selfPath)
        self.children.names (String.mk [c]) key with
    | error e =>
      simp [Section.addSubsection, Section.splitExist, Section.expand, hloc, hexS,
        bind, Except.bind] at h1
    | ok P =>
      have hexp : Section.expand root selfPath (String.mk [c]) key = .ok P := by
        simp [Section.expand, hloc, hexS]
      cases hsp : pySplit P (String.mk [c]) with
      | nil =>
        simp [Section.addSubsection, Section.splitExist, hexp, hsp,
          bind, Except.bind] at h1
      | cons cname rest =>
        by_cases hcn : (cname == root.name) = true
        case neg =>
          simp [Section.addSubsection, Section.splitExist, hexp, hsp, hcn,
            bind, Except.bind] at h1
        case pos =>
        have hceq : cname = root.name := by simpa using hcn
        cases hwe : walkExist root rest with
        | mk e m =>
          cases hgf : Section.getFromPath root (String.mk [c])
              (pyJoin (String.mk [c]) (cname :: (e ++ [""]))) with
          | error e2 =>
            simp [Section.addSubsection, Section.splitExist, hexp, hsp, hcn, hwe, hgf,
              bind, Except.bind] at h1
          | ok target =>
            cases target with
            | val v =>
              simp [Section.addSubsection, Section.splitExist, hexp, hsp, hcn, hwe, hgf,
                bind, Except.bind] at h1
            | pynone =>
              simp [Section.addSubsection, Section.splitExist, hexp, hsp, hcn, hwe, hgf,
                bind, Except.bind] at h1
            | sect s0 =>
              cases m with
              | nil =>
                simp [Section.addSubsection, Section.splitExist, hexp, hsp, hcn, hwe, hgf,
                  bind, Except.bind] at h1
                obtain ⟨ht', hr⟩ := h1
                subst ht'
                simp [Section.addSubsection, Section.splitExist, hexp, hsp, hcn, hwe, hgf,
                  bind, Except.bind]
              | cons mh mt =>
                simp [Section.addSubsection, Section.splitExist, hexp, hsp, hcn, hwe, hgf,
                  bind, Except.bind] at h1
                have ht' : attachAt root e (chainOf mh mt) = t' := by
                  cases hcr : createdNodes mh mt with
                  | nil =>
                    rw [hcr] at h1
                    simp at h1
                    exact h1.1
                  | cons n0 ns =>
                    cases ns with
                    | nil =>
                      rw [hcr] at h1
                      simp at h1
                      exact h1.1
                    | cons n1 ns2 =>
                      rw [hcr] at h1
                      simp at h1
                      exact h1.1
                have hloc2 := locate_attach selfPath root e self (chainOf mh mt) hloc
                obtain ⟨self2, hloc2⟩ := hloc2
                have hexS2 : expandSublevel (fullPathOf (String.mk [c]) selfPath)
                    self2.children.names (String.mk [c]) key = .ok P := by
                  rw [expandSublevel_childNames _ _ _ self2.children.names
                    self.children.names hkey]
                  exact hexS
                have hwe2 : walkExist (attachAt root e (chainOf mh mt)) rest = (rest, []) :=
                  walkExist_attach e root rest mh mt hwe
                have hTname : (attachAt root e (chainOf mh mt)).name = root.name :=
                  attachAt_name root e (chainOf mh mt)
                have hcn2 : (cname == (attachAt root e (chainOf mh mt)).name) = true := by
                  rw [hTname]
                  exact hcn
                have hchunks : ∀ p ∈ cname :: (rest ++ [""]), c ∉ p.data := by
                  intro p hp
                  have hp2 : p ∈ (cname :: rest) ++ [""] := by simpa using hp
                  rcases List.mem_append.mp hp2 with hp3 | hp3
                  · have : p ∈ pySplit P (String.mk [c]) := by rw [hsp]; exact hp3
                    exact chunks_no_c c P p this
                  · simp at hp3
                    subst hp3
                    simp
                have hsplit2 : pySplit (pyJoin (String.mk [c]) (cname :: (rest ++ [""])))
                    (String.mk [c]) = cname :: (rest ++ [""]) := by
                  rw [pyRoundtrip c (cname :: (rest ++ [""])) (by simp) hchunks]
                obtain ⟨x, hx⟩ := descend_of_walkExist rest _ hwe2
                have hgf2 : Section.getFromPath (attachAt root e (chainOf mh mt))
                    (String.mk [c]) (pyJoin (String.mk [c]) (cname :: (rest ++ [""])))
                    = .ok (.sect x) := by
                  simp only [Section.getFromPath, hsplit2]
                  have : ((attachAt root e (chainOf mh mt)).name == cname) = true := by
                    rw [hTname, ← hceq]
                    simp
                  rw [this]
                  simp only [if_true]
                  exact gfp_section rest _ x hx
                rw [← ht']
                simp [Section.addSubsection, Section.splitExist, Section.expand, hloc2,
                  hexS2, hsp, hcn2, hwe2, hgf2, bind, Except.bind]

example : "/" = String.mk ['/'] := rfl

/-- Claim C5 counterexample: on the bare root `top` with the key
`top/top`, the first call creates `top/top` - and the second call, far
from being idempotent, creates `top/top/top` (the key expands differently
once the first call has added a child named like the root), changing the
tree.  The second call also returns the newly created node rather than
the node the first call created. -/
theorem claim_C5_counterexample :
    Section.addSubsection t0 ["top"] "/" "top/top" = .ok (t1, .one (.mk "top" [] .nil))
    ∧ Section.addSubsection t1 ["top"] "/" "top/top" = .ok (t2, .one (.mk "top" [] .nil))
    ∧ t2 ≠ t1 :=
  ⟨rfl, rfl, by decide⟩

/-- Claim C5 witness: the amended theorem applied to the bare root `top`
and the key `/a`: the second call returns the tree unchanged with the
empty list. -/
theorem claim_C5_witness :
    Section.addSubsection (Stree.mk "top" [] (.cons (.mk "a" [] .nil) .nil)) ["top"]
        (String.mk ['/']) "/a"
      = .ok (Stree.mk "top" [] (.cons (.mk "a" [] .nil) .nil), .many []) :=
  claim_C5 t0 ["top"] '/' "/a"
    (Stree.mk "top" [] (.cons (.mk "a" [] .nil) .nil)) (.one (.mk "a" [] .nil))
    (Or.inr rfl) rfl

/-- Claim C8 witness: the refinement equation applied to the concrete
chain `1 < 2`. -/
theorem claim_C8_witness :
    parseNode ⟨[], []⟩
        (.compare (.constant (.int 1)) (.cons .lt (.constant (.int 2)) .nil))
      = (do
          let v0 ← parseNode ⟨[], []⟩ (.constant (.int 1))
          let b ← specCompareChain ⟨[], []⟩ v0 (.cons .lt (.constant (.int 2)) .nil)
          pure (Value.bool b)) :=
  (claim_C8 ⟨[], []⟩ (.constant (.int 1)) (.cons .lt (.constant (.int 2)) .nil)).1
